import Mathlib

/-
Verification development for the mcp_codemode pipeline engine.

The TypeScript sources are shallowly embedded:
  - src/mcp_providers/types.ts / utils.ts : Catalog, MCPTool, listAllToolPaths,
    getToolByPath (tools and sub-catalogs become a tagged inductive; a JS object
    becomes an insertion-ordered association structure with distinct keys).
  - src/steps/filterTools.ts : filterToolsForQuery, filterToolBatch,
    reconstructCatalog.
  - src/steps/executeCode.ts : executeCode, buildToolFunctions,
    pathToFunctionName.
  - src/steps/generateToolsCode.ts : capitalize, mapTypeStringToTSType,
    interface synthesis.
  - src/steps/implementCode.ts : implementCode, generateFunctionDeclarations.
  - src/CodeModeMCP.ts : runMCPCode, MCPExecutionResult.

External machinery (LLM calls, the TypeScript compiler, the in-process
AsyncFunction evaluator) is modelled as function parameters returning
Except/flag values; asynchronous JS functions become Except-valued Lean
functions (a rejected promise is an error value).
-/

/-- Parameter metadata of a tool (src/mcp_providers/types.ts, ToolParameter).
The optional default value is omitted: no pipeline stage reads it. -/
structure ToolParameter where
  name : String
  type : String
  description : String
  required : Bool
deriving DecidableEq, Repr

/-- An MCP tool (src/mcp_providers/types.ts, MCPTool). The opaque execute
capability is not part of the data model here; tool invocation is modelled at
the execution-wirer boundary as part of the in-process evaluation function. -/
structure MCPTool where
  name : String
  description : String
  parameters : List ToolParameter
deriving DecidableEq, Repr

/-- A hierarchical tool catalog (src/mcp_providers/types.ts, ToolCatalog):
a JS object whose entries, in insertion order, map a string key to either an
MCPTool or a nested catalog.  Following the spec's design note, the untagged
union is embedded as a tagged inductive; isMCPTool tests become constructor
matches.  JS guarantees that keys at one level are pairwise distinct; that
invariant is captured separately by nodupKeys below. -/
inductive Catalog where
  | nil : Catalog
  | consTool (key : String) (tool : MCPTool) (rest : Catalog) : Catalog
  | consSub (key : String) (sub : Catalog) (rest : Catalog) : Catalog
deriving DecidableEq, Repr

/-- JS String.prototype.split(sep) for a one-character separator, on the
character list: empty input gives [[]], empty segments are preserved. -/
def splitChAux (sep : Char) : List Char → List (List Char)
  | [] => [[]]
  | c :: rest =>
    match splitChAux sep rest with
    | [] => [[c]]
    | w :: ws => if c = sep then [] :: w :: ws else (c :: w) :: ws

/-- JS path.split(sep) at the string level. -/
def splitCh (sep : Char) (s : String) : List String :=
  (splitChAux sep s.data).map (fun l => String.mk l)

/-- JS Array.prototype.join(sep): empty list gives the empty string. -/
def joinSep (sep : String) : List String → String
  | [] => ""
  | [s] => s
  | s :: rest => s ++ sep ++ joinSep sep rest

/-- JS String.prototype.toUpperCase (ASCII fragment, which is all the pipeline
produces). -/
def jsToUpper (s : String) : String := String.mk (s.data.map Char.toUpper)

/-- JS String.prototype.toLowerCase (ASCII fragment). -/
def jsToLower (s : String) : String := String.mk (s.data.map Char.toLower)

/-- JS String.prototype.trim (whitespace at both ends). -/
def jsTrim (s : String) : String :=
  String.mk (((s.data.dropWhile Char.isWhitespace).reverse.dropWhile
    Char.isWhitespace).reverse)

/-- Value of a list of decimal digit characters. -/
def decDigitsVal (l : List Char) : Nat :=
  l.foldl (fun acc c => acc * 10 + (c.toNat - 48)) 0

/-- Value of a list of hexadecimal digit characters. -/
def hexDigitsVal (l : List Char) : Nat :=
  l.foldl (fun acc c =>
    acc * 16 + (if c.isDigit then c.toNat - 48
      else if c ≥ 'a' then c.toNat - 87 else c.toNat - 55)) 0

/-- Hexadecimal digit test used by the parseInt model. -/
def isHexDigitCh (c : Char) : Bool :=
  c.isDigit || ('a' ≤ c && c ≤ 'f') || ('A' ≤ c && c ≤ 'F')

/-- JS parseInt(s) with no radix argument: skip leading whitespace, optional
sign, then either a 0x/0X hexadecimal literal or a run of decimal digits;
trailing garbage is ignored; none models NaN (no digits consumed). -/
def jsParseInt (s : String) : Option Int :=
  let l := s.data.dropWhile Char.isWhitespace
  let signed : Int × List Char :=
    match l with
    | '+' :: r => (1, r)
    | '-' :: r => (-1, r)
    | _ => (1, l)
  match signed.2 with
  | '0' :: 'x' :: r =>
    let ds := r.takeWhile isHexDigitCh
    if ds = [] then none else some (signed.1 * (hexDigitsVal ds : Int))
  | '0' :: 'X' :: r =>
    let ds := r.takeWhile isHexDigitCh
    if ds = [] then none else some (signed.1 * (hexDigitsVal ds : Int))
  | l2 =>
    let ds := l2.takeWhile Char.isDigit
    if ds = [] then none else some (signed.1 * (decDigitsVal ds : Int))

/-- JS String.prototype.includes(pattern). -/
def jsIncludes (s pattern : String) : Bool := decide (pattern.data <:+: s.data)

/-- Key list of one catalog level (Object.entries order). -/
def keys : Catalog → List String
  | .nil => []
  | .consTool k _ r => k :: keys r
  | .consSub k _ r => k :: keys r

/-- Single-level key lookup, the embedding of the JS member access
current[part] together with its isMCPTool discrimination. -/
def findKey : Catalog → String → Option (MCPTool ⊕ Catalog)
  | .nil, _ => none
  | .consTool k t r, p => if k = p then some (Sum.inl t) else findKey r p
  | .consSub k s r, p => if k = p then some (Sum.inr s) else findKey r p

/-- Walk of getToolByPath (src/mcp_providers/utils.ts) over the already-split
path segments: descend one key at a time; reaching a tool with segments left,
or running out of catalog, yields null; the walk must end exactly on a tool. -/
def getToolSegs : Catalog → List String → Option MCPTool
  | _, [] => none
  | c, p :: rest =>
    match findKey c p with
    | none => none
    | some (Sum.inl t) => if rest = [] then some t else none
    | some (Sum.inr sub) => getToolSegs sub rest

/-- getToolByPath (src/mcp_providers/utils.ts): split the dotted path and walk
the catalog. -/
def getToolByPath (catalog : Catalog) (path : String) : Option MCPTool :=
  getToolSegs catalog (splitCh '.' path)

/-- joinPre pre key is the JS template choice prefix ? prefix + "." + key : key
from listAllToolPaths (the empty string is the only falsy JS string). -/
def joinPre (pre k : String) : String := if pre = "" then k else pre ++ "." ++ k

/-- listAllToolPaths (src/mcp_providers/utils.ts): recursively list all
dot-joined tool paths, in entry order, tools of a sub-catalog first. -/
def listAllToolPaths : Catalog → String → List String
  | .nil, _ => []
  | .consTool k _ r, pre => joinPre pre k :: listAllToolPaths r pre
  | .consSub k s r, pre => listAllToolPaths s (joinPre pre k) ++ listAllToolPaths r pre

/-- Ghost function for proofs: the tool positions of a catalog as key
sequences, in the same order listAllToolPaths produces them. -/
def pathsSegs : Catalog → List (List String)
  | .nil => []
  | .consTool k _ r => [k] :: pathsSegs r
  | .consSub k s r => (pathsSegs s).map (fun segs => k :: segs) ++ pathsSegs r

/-- Key sanity used by the well-formedness predicates: a key is nonempty and
contains no dot (so that dot-joined paths determine their key sequence). -/
def goodKey (k : String) : Bool := decide (k.data ≠ []) && decide (¬ '.' ∈ k.data)

/-- Every key at every level of the catalog is a goodKey. -/
def allKeysGood : Catalog → Bool
  | .nil => true
  | .consTool k _ r => goodKey k && allKeysGood r
  | .consSub k s r => goodKey k && allKeysGood s && allKeysGood r

/-- Keys at every level are pairwise distinct, the invariant every JS object
has by construction. -/
def nodupKeys : Catalog → Bool
  | .nil => true
  | .consTool k _ r => decide (¬ k ∈ keys r) && nodupKeys r
  | .consSub k s r => decide (¬ k ∈ keys r) && nodupKeys s && nodupKeys r

/-- Well-formed catalog: JS-object key distinctness plus nonempty dot-free
keys. -/
def wfCatalog (c : Catalog) : Bool := allKeysGood c && nodupKeys c

/-- Entry value used when writing a key (tool or sub-catalog). -/
def consEntry (k : String) (v : MCPTool ⊕ Catalog) (r : Catalog) : Catalog :=
  match v with
  | Sum.inl t => Catalog.consTool k t r
  | Sum.inr s => Catalog.consSub k s r

/-- Write of an own data property current[key] = value on one catalog level:
overwrite in place when an own property exists, else append the new own entry
at the end (shadowing any inherited member of the same name).  The
prototype-chain-sensitive cases of the source - reads of inherited
Object.prototype members and the inherited setter invoked by assigning to
a property named with two leading and trailing underscores and the word proto
- are handled at the call site in insertSegs, the only writer. -/
def setEntry : Catalog → String → (MCPTool ⊕ Catalog) → Catalog
  | .nil, k, v => consEntry k v .nil
  | .consTool k2 t r, k, v =>
    if k2 = k then consEntry k v r else Catalog.consTool k2 t (setEntry r k v)
  | .consSub k2 s r, k, v =>
    if k2 = k then consEntry k v r else Catalog.consSub k2 s (setEntry r k v)

/-- Property names every plain JS object inherits from Object.prototype
(Node/V8).  Reading such a name on an object without an own property of that
name yields a truthy builtin (a function, or for the proto accessor the
prototype object) instead of undefined. -/
def protoProps : List String :=
  ["constructor", "hasOwnProperty", "isPrototypeOf", "propertyIsEnumerable",
   "toLocaleString", "toString", "valueOf", "__proto__", "__defineGetter__",
   "__defineSetter__", "__lookupGetter__", "__lookupSetter__"]

/-- No key at any level of the catalog is an inherited Object.prototype
member name. -/
def safeKeys : Catalog → Bool
  | .nil => true
  | .consTool k _ r => decide (¬ k ∈ protoProps) && safeKeys r
  | .consSub k s r => decide (¬ k ∈ protoProps) && safeKeys s && safeKeys r

/-- Navigation/creation loop of reconstructCatalog (src/steps/filterTools.ts)
over the split path parts, with JS prototype-chain semantics:
the test if (!current[part]) and the read current = current[part] see
inherited Object.prototype members, so when part has no own property but is a
protoProps name, the loop walks into the inherited builtin and all further
writes land outside the catalog under construction (invisible to the
own-property traversals listAllToolPaths/getToolByPath): the tool is lost and
the accumulator is unchanged.  Likewise, when an intermediate part is an own
tool, the JS code walks into the (truthy) tool object and sets properties on
it, which isMCPTool-guided traversal never sees.  The final write
current[lastPart] = tool creates or overwrites an own property, except that
assigning to a property named proto (with the double underscores) and not
shadowed by an own property invokes the inherited setter and creates no own
property: the tool is lost. -/
def insertSegs : Catalog → List String → MCPTool → Catalog
  | acc, [], _ => acc
  | acc, [k], t =>
    match findKey acc k with
    | some _ => setEntry acc k (Sum.inl t)
    | none => if k = "__proto__" then acc else setEntry acc k (Sum.inl t)
  | acc, k :: k2 :: rest, t =>
    match findKey acc k with
    | some (Sum.inl _) => acc
    | some (Sum.inr sub) => setEntry acc k (Sum.inr (insertSegs sub (k2 :: rest) t))
    | none =>
      if k ∈ protoProps then acc
      else setEntry acc k (Sum.inr (insertSegs Catalog.nil (k2 :: rest) t))

/-- Loop body of reconstructCatalog: resolve the path in the original catalog,
skip it if the lookup fails (if (!tool) continue), else insert it into the
catalog under construction. -/
def reconStep (originalCatalog : Catalog) (acc : Catalog) (path : String) : Catalog :=
  match getToolByPath originalCatalog path with
  | none => acc
  | some tool => insertSegs acc (splitCh '.' path) tool

/-- reconstructCatalog (src/steps/filterTools.ts): rebuild the hierarchical
structure hosting the selected paths, resolving each path in the original
catalog and skipping paths that do not resolve. -/
def reconstructCatalog (originalCatalog : Catalog) (selectedPaths : List String) : Catalog :=
  selectedPaths.foldl (reconStep originalCatalog) Catalog.nil

/-- One flattened path paired with its (possibly failed) lookup, the element
shape built by filterToolsForQuery as path to getToolByPath(catalog, path)!
(the non-null assertion makes the null case observable downstream). -/
structure BatchItem where
  path : String
  tool : Option MCPTool
deriving DecidableEq, Repr

/-- JS slicing loop core for (let i = 0; i < l.length; i += n) push(l.slice(i, i+n)),
structured with explicit fuel so that it computes by kernel reduction.  For
n = 0 the JS loop never terminates; every caller passes a positive size
(defaults 20 and 8/20), and chunks returns [] in that vacuous case. -/
def chunksFuel {α : Type} (n : Nat) : Nat → List α → List (List α)
  | _, [] => []
  | 0, _ :: _ => []
  | fuel + 1, a :: rest => ((a :: rest).take n) :: chunksFuel n fuel ((a :: rest).drop n)

/-- Chunking entry point: the fuel l.length suffices because every step of the
positive-size loop consumes at least one element. -/
def chunks {α : Type} (n : Nat) (l : List α) : List (List α) :=
  if n = 0 then [] else chunksFuel n l.length l

/-- Parameter summary line used in the batch prompt
(src/steps/filterTools.ts, filterToolBatch). -/
def paramSummary (p : ToolParameter) : String :=
  p.name ++ ": " ++ p.type ++ (if p.required then " (required)" else "")

/-- Numbered description of one batch item.  Dereferences item.tool: a null
tool (failed lookup) raises a TypeError in JS, modelled as none. -/
def describeItem (index : Nat) (item : BatchItem) : Option String :=
  item.tool.map (fun t =>
    toString (index + 1) ++ ". " ++ item.path ++ "\n   Description: " ++
      t.description ++ "\n   Parameters: " ++
      joinSep ", " (t.parameters.map paramSummary))

/-- Tool-description block of the batch prompt; none when any tool of the
batch is null (the JS map throws before any LLM call is made). -/
def batchDescriptions (batch : List BatchItem) : Option String :=
  (batch.enum.mapM (fun p => describeItem p.1 p.2)).map (joinSep "\n\n")

/-- Relevance prompt of filterToolBatch.  The instructional boilerplate is
abridged; the prompt remains the same deterministic function of the query and
the tool descriptions as in the source. -/
def filterPrompt (query toolDescriptions : String) : String :=
  "\nSelect ONLY the tools that are directly relevant and necessary to accomplish the provided task.\n" ++
  "Respond with ONLY the numbers of relevant tools, comma-separated (e.g., \"1,3,5\").\n" ++
  "If no tools are relevant, respond with \"none\".\n\nGiven this user query: \"" ++
  query ++ "\"\n\nAvailable tools:\n" ++ toolDescriptions ++ "\n"

/-- Response parsing of filterToolBatch (src/steps/filterTools.ts): trim and
lowercase; a literal none or an empty response selects nothing; otherwise
split on commas, parseInt each trimmed token, keep indices in [1, batch size],
and map each kept 1-based index to the path of that batch element.  The
indexing batch[idx - 1] is within bounds by the range filter; the model uses
the total lookup and keeps its (always-some) results. -/
def parseBatchSelection (response : String) (batch : List BatchItem) : List String :=
  let trimmedResponse := jsToLower (jsTrim response)
  if trimmedResponse = "none" ∨ trimmedResponse = "" then []
  else
    let selectedIndices :=
      ((splitCh ',' trimmedResponse).filterMap (fun s => jsParseInt (jsTrim s))).filter
        (fun n => decide (1 ≤ n) && decide (n ≤ (batch.length : Int)))
    selectedIndices.filterMap (fun idx => (batch[idx.toNat - 1]?).map (fun it => it.path))

/-- filterToolBatch (src/steps/filterTools.ts): build the prompt (this
dereferences every tool and can fail), call the relevance LLM inside
try/catch; on any error from the call, fail open and return every path of the
batch; on success, parse the response. -/
def filterToolBatch (batch : List BatchItem) (query : String)
    (llmFunction : String → Except String String) : Except String (List String) :=
  match batchDescriptions batch with
  | none => Except.error "TypeError: item.tool is null"
  | some toolDescriptions =>
    match llmFunction (filterPrompt query toolDescriptions) with
    | Except.error _ => Except.ok (batch.map (fun it => it.path))
    | Except.ok response => Except.ok (parseBatchSelection response batch)

/-- Embedding of Promise.all over an array of Except-valued computations:
results are collected in submission order, and any rejection rejects the
whole call. -/
def exceptMapM {α β : Type} (f : α → Except String β) : List α → Except String (List β)
  | [] => Except.ok []
  | x :: xs =>
    match f x with
    | Except.error e => Except.error e
    | Except.ok y =>
      match exceptMapM f xs with
      | Except.error e => Except.error e
      | Except.ok ys => Except.ok (y :: ys)

/-- Result record of the batch filter (src/steps/filterTools.ts,
FilterToolsResult). -/
structure FilterToolsResult where
  filteredCatalog : Catalog
  totalTools : Nat
  selectedTools : Nat
  selectedPaths : List String
deriving Repr

/-- Default of FilterToolsOptions.maxToolsPerPrompt as destructured in
filterToolsForQuery. -/
def filterToolsDefaultMaxToolsPerPrompt : Nat := 20

/-- Default of FilterToolsOptions.maxConcurrentThreads as destructured in
filterToolsForQuery (the accompanying JSDoc documents 5; the code uses 20). -/
def filterToolsDefaultMaxConcurrentThreads : Nat := 20

/-- Documented default of FilterToolsOptions.maxConcurrentThreads: the JSDoc
annotation on the option declares 5. -/
def filterToolsDocumentedMaxConcurrentThreads : Nat := 5

/-- Flattened paths of a catalog paired with their lookups, the allTools array
of filterToolsForQuery (the non-null assertion is modelled by keeping the
Option). -/
def catalogBatchItems (catalog : Catalog) : List BatchItem :=
  (listAllToolPaths catalog "").map (fun path =>
    BatchItem.mk path (getToolByPath catalog path))

/-- filterToolsForQuery (src/steps/filterTools.ts): flatten the catalog; on an
empty catalog return the empty result at once (no LLM call); otherwise batch
the tools, process batches in waves of at most maxConcurrentThreads with
Promise.all (order-preserving; a rejection anywhere rejects the whole call),
concatenate the per-batch selections wave by wave, and reconstruct the
filtered catalog from the selected paths. -/
def filterToolsForQuery (query : String) (catalog : Catalog)
    (llmFunction : String → Except String String)
    (maxToolsPerPromptOpt : Option Nat) (maxConcurrentThreadsOpt : Option Nat) :
    Except String FilterToolsResult :=
  if (listAllToolPaths catalog "").length = 0 then
    Except.ok (FilterToolsResult.mk Catalog.nil 0 0 [])
  else do
    let waveResults ← exceptMapM
      (fun batchSlice => exceptMapM (fun batch => filterToolBatch batch query llmFunction) batchSlice)
      (chunks (maxConcurrentThreadsOpt.getD filterToolsDefaultMaxConcurrentThreads)
        (chunks (maxToolsPerPromptOpt.getD filterToolsDefaultMaxToolsPerPrompt)
          (catalogBatchItems catalog)))
    pure (FilterToolsResult.mk
      (reconstructCatalog catalog ((waveResults.map List.flatten).flatten))
      (listAllToolPaths catalog "").length
      ((waveResults.map List.flatten).flatten).length
      ((waveResults.map List.flatten).flatten))

/-- pathToFunctionName (src/steps/executeCode.ts): split the tool path on
dots, join with underscores, uppercase. -/
def pathToFunctionName (toolPath : String) : String :=
  jsToUpper (joinSep "_" (splitCh '.' toolPath))

/-- JS Record property write toolFunctions[functionName] = wrapper: update in
place when the key exists (keeping its position and so deduplicating colliding
keys, the later value winning), else append the new entry. -/
def setAssoc : List (String × String) → String → String → List (String × String)
  | [], k, v => [(k, v)]
  | e :: rest, k, v => if e.1 = k then (k, v) :: rest else e :: setAssoc rest k v

/-- Loop body of buildToolFunctions: skip unresolvable paths (if (!tool)
continue), else write the wrapper under the canonical call name. -/
def buildStep (catalog : Catalog) (acc : List (String × String)) (toolPath : String) :
    List (String × String) :=
  match getToolByPath catalog toolPath with
  | none => acc
  | some _ => setAssoc acc (pathToFunctionName toolPath) toolPath

/-- buildToolFunctions (src/steps/executeCode.ts): the execution binding
table, a JS Record built by successive property writes - colliding canonical
names share one key.  Each resolvable tool path contributes an entry keyed by
its pathToFunctionName; unresolvable paths are skipped.  The wrapper closure
(log, forward to tool.execute, rethrow failures) is opaque to the pipeline and
is recorded by the tool path it forwards to. -/
def buildToolFunctions (catalog : Catalog) (toolPaths : List String) : List (String × String) :=
  toolPaths.foldl (buildStep catalog) []

/-- Result record of the execution wirer (src/steps/executeCode.ts,
ExecuteCodeResult). -/
structure ExecuteCodeResult where
  success : Bool
  output : String
  error : Option String
  toolsWired : Nat
deriving DecidableEq, Repr

/-- executeCode (src/steps/executeCode.ts): fail fast on an empty catalog
without evaluating anything; otherwise build the binding table, evaluate the
program in-process with the bindings in scope, and convert any thrown
exception into a success = false result with the error message and the wired
count (exceptions never propagate past this function, whose model is total).
The TypeScript-to-JavaScript transpile, the entry-point stripping and the
AsyncFunction evaluation (including exceptions rethrown by tool-binding
wrappers) are the opaque evalInProcess argument; its error values are exactly
the exceptions the try/catch observes.  The second component records whether
in-process evaluation was attempted. -/
def executeCode (mainCode : String) (catalog : Catalog)
    (evalInProcess : String → List (String × String) → Except String String) :
    ExecuteCodeResult × Bool :=
  let allToolPaths := listAllToolPaths catalog ""
  if allToolPaths.length = 0 then
    (ExecuteCodeResult.mk false "" (some "No tools available in catalog") 0, false)
  else
    let toolFunctions := buildToolFunctions catalog allToolPaths
    match evalInProcess mainCode toolFunctions with
    | Except.ok result =>
      (ExecuteCodeResult.mk true result none allToolPaths.length, true)
    | Except.error e =>
      (ExecuteCodeResult.mk false "" (some e) allToolPaths.length, true)

/-- capitalize (src/steps/generateToolsCode.ts): uppercase the first
character; the empty string maps to itself (charAt(0) of "" is ""). -/
def capitalize (str : String) : String :=
  match str.data with
  | [] => ""
  | c :: rest => String.mk (Char.toUpper c :: rest)

/-- mapTypeStringToTSType (src/steps/generateToolsCode.ts): fixed
case-insensitive classification of the free-text parameter kind. -/
def mapTypeStringToTSType (typeString : String) : String :=
  let lowerType := jsToLower typeString
  if jsIncludes lowerType "string" then "string"
  else if jsIncludes lowerType "number" || jsIncludes lowerType "int" then "number"
  else if jsIncludes lowerType "boolean" || jsIncludes lowerType "bool" then "boolean"
  else if jsIncludes lowerType "array" then "any[]"
  else if jsIncludes lowerType "object" then "Record<string, any>"
  else "any"

/-- Name of the synthesized parameter interface of a tool
(src/steps/generateToolsCode.ts, generateToolInterfaceCode): derived from the
tool NAME, not from the tool path. -/
def interfaceName (tool : MCPTool) : String := capitalize tool.name ++ "Params"

/-- Abridged rendering of the synthesized interface of one tool: the exported
interface head with its name, and one field per parameter with optionality
mirroring the required flag and the mapped type (JSDoc trivia and layout of
the ts.factory printer are elided). -/
def generateToolInterfaceCode (tool : MCPTool) : String :=
  "export interface " ++ interfaceName tool ++ " \x7b " ++
  joinSep "; " (tool.parameters.map (fun p =>
    p.name ++ (if p.required then ": " else "?: ") ++ mapTypeStringToTSType p.type)) ++
  " \x7d"

/-- Interface names synthesized by generateToolsCode, in flattening order
(unresolvable paths are skipped, mirroring the if (!tool) continue). -/
def synthesizedInterfaceNames (catalog : Catalog) : List String :=
  (listAllToolPaths catalog "").filterMap (fun toolPath =>
    (getToolByPath catalog toolPath).map interfaceName)

/-- Full in-memory interfaces code of generateToolsCode
(src/steps/generateToolsCode.ts): per tool, a path comment, a function-name
comment, and the synthesized interface. -/
def generateToolsCodeText (catalog : Catalog) : String :=
  joinSep "" ((listAllToolPaths catalog "").filterMap (fun toolPath =>
    (getToolByPath catalog toolPath).map (fun tool =>
      "// Tool: " ++ toolPath ++ "\n// Function name: " ++ tool.name ++ "\n" ++
      generateToolInterfaceCode tool ++ "\n\n")))

/-- JS replace(/Params$/, '') on a name that ends in Params: drop the final
six characters. -/
def stripParamsSuffix (s : String) : String :=
  String.mk (s.data.take (s.data.length - 6))

/-- JS word character class backslash-w: ASCII letters, digits and
underscore. -/
def isWordChar (c : Char) : Bool := c.isAlphanum || c = '_'

/-- generateFunctionDeclarations (src/steps/implementCode.ts), modelled at the
level of the interface-name list.  Per synthesized fragment
export interface NAME with a brace, the regex export then interface then a
captured word-run ending in Params then the brace matches exactly when NAME is
a word-character run of the form x ++ Params with x nonempty, in which case
the declared function name is NAME with the anchored Params suffix replaced
away; names containing a non-word character, or the bare name Params, yield
no declaration.  Occurrences of the pattern injected through tool metadata
(descriptions, tool names, parameter names reproduced in the interfaces text)
are outside this model; no theorem below depends on such inputs, and the
concrete inputs used contain none. -/
def generateFunctionDeclarations (interfaceNames : List String) : List String :=
  interfaceNames.filterMap (fun n =>
    if n.data.all isWordChar && decide (6 < n.data.length)
        && decide (n.data.drop (n.data.length - 6) = ("Params" : String).data)
      then some (stripParamsSuffix n) else none)

/-- Declaration line emitted per declared function name. -/
def declarationLine (functionName : String) : String :=
  "declare function " ++ functionName ++ "(params: " ++ functionName ++
  "Params): Promise<any>;"

/-- Joined declaration block prepended to the candidate program before
compilation. -/
def functionDeclarationsText (interfaceNames : List String) : String :=
  joinSep "\n" ((generateFunctionDeclarations interfaceNames).map declarationLine)

/-- Result record of implementCode (src/steps/implementCode.ts,
ImplementCodeResult). -/
structure ImplementCodeResult where
  implementationCode : String
  compilesSuccessfully : Bool
  compilationErrors : List String
  fullProgram : String
deriving DecidableEq, Repr

/-- Prompt of implementCode (instructional boilerplate abridged; the prompt
stays a deterministic function of query, pseudocode and interfaces). -/
def createImplementationPrompt (query pseudocode interfacesCode : String) : String :=
  "You are a TypeScript code generator.\n\nUSER QUERY:\n" ++ query ++
  "\n\nSTRATEGIC PLAN (from strategyLLM):\n" ++ pseudocode ++
  "\n\nAVAILABLE TOOL PARAMETER INTERFACES:\n" ++ interfacesCode ++
  "\n\nGenerate a complete, self-contained TypeScript program that follows the strategic plan.\n"

/-- implementCode (src/steps/implementCode.ts): ask the main LLM for an
implementation (a rejection propagates), prepend the interfaces and the
forward declarations, statically verify the combined program, and return the
result.  The TypeScript compiler run of verifyTypeScriptCompilation is the
opaque verifyTS argument (success flag and diagnostic list).  Note the source
quirk kept here: the returned fullProgram field carries only the
implementation code, not the declarations used for verification.  The
interface names are passed alongside the interfaces text, matching what the
regex scan of generateFunctionDeclarations extracts from it. -/
def implementCode (query pseudocode interfacesCode : String)
    (interfaceNames : List String)
    (llmFunction : String → Except String String)
    (verifyTS : String → Bool × List String) : Except String ImplementCodeResult :=
  match llmFunction (createImplementationPrompt query pseudocode interfacesCode) with
  | Except.error e => Except.error e
  | Except.ok implementationCode =>
    let fullProgram := interfacesCode ++ "\n\n" ++
      functionDeclarationsText interfaceNames ++ "\n\n" ++ implementationCode
    let compilationResult := verifyTS fullProgram
    Except.ok (ImplementCodeResult.mk implementationCode compilationResult.1
      compilationResult.2 implementationCode)

/-- Result-type variants of MCPExecutionResult (src/CodeModeMCP.ts): the
declared union has success, partial and failure; partialResult embeds the
partial variant. -/
inductive ResultType where
  | success
  | partialResult
  | failure
deriving DecidableEq, Repr

/-- MCPExecutionResult (src/CodeModeMCP.ts).  Durations are wall-clock values
outside the model; the ordered step names of the timing ledger are kept. -/
structure MCPExecutionResult where
  resultType : ResultType
  timings : List String
deriving DecidableEq, Repr

/-- Fallback pseudocode substituted when the strategy LLM call fails
(src/steps/generatePseudocode.ts). -/
def fallbackPseudocode (query : String) : String :=
  "\n// Analyze the user query: \"" ++ query ++
  "\"\n// Execute required operations using available tools\nconst result = await executeTask();\n"

/-- Pseudocode prompt (src/steps/generatePseudocode.ts).  The category
overview aggregation is abridged to the flattened path list; only that the
prompt is a deterministic function of the query and catalog matters here. -/
def pseudocodePrompt (query : String) (catalog : Catalog) : String :=
  "\nYou are a strategic planning assistant.\n\nGiven:\n- User Query: \"" ++ query ++
  "\"\n- Available Tool Categories: " ++ joinSep "; " (listAllToolPaths catalog "") ++
  "\n\nGenerate the TypeScript-style pseudocode now:\n"

/-- generatePseudocode (src/steps/generatePseudocode.ts): call the strategy
LLM; on failure fall back to a minimal placeholder plan instead of aborting.
Returns the pseudocode and the total tool count. -/
def generatePseudocode (query : String) (catalog : Catalog)
    (llmFunction : String → Except String String) : String × Nat :=
  let totalToolsAvailable := (listAllToolPaths catalog "").length
  match llmFunction (pseudocodePrompt query catalog) with
  | Except.ok pseudocode => (pseudocode, totalToolsAvailable)
  | Except.error _ => (fallbackPseudocode query, totalToolsAvailable)

/-- External collaborators of one pipeline run: the three LLM tiers, the
TypeScript compiler check, the in-process evaluator, and whether a run
environment is configured. -/
structure PipelineEnv where
  strategyLLM : String → Except String String
  tinyLLM : String → Except String String
  mainLLM : String → Except String String
  verifyTS : String → Bool × List String
  evalInProcess : String → List (String × String) → Except String String
  hasRunEnvironment : Bool

/-- RunMCPCodeOptions fields the control flow reads (src/CodeModeMCP.ts).
maxToolCalls and the two timeouts are accepted and logged but enforced
nowhere, so they are omitted. -/
structure RunMCPCodeOptions where
  query : Option String
  maxToolsPerPrompt : Option Nat
  maxConcurrentThreads : Option Nat

/-- Default of RunMCPCodeOptions.maxToolsPerPrompt as destructured in
runMCPCode. -/
def runMCPCodeDefaultMaxToolsPerPrompt : Nat := 20

/-- Default of RunMCPCodeOptions.maxConcurrentThreads as destructured in
runMCPCode (the accompanying JSDoc documents 5; the code uses 8). -/
def runMCPCodeDefaultMaxConcurrentThreads : Nat := 8

/-- Step names of the timing ledger when the run returns at the compile gate. -/
def stepNamesNoExec : List String :=
  ["Generate Pseudocode (strategyLLM)", "Filter Tools (tinyLLM)",
   "Generate TypeScript Interfaces", "Implement Code (mainLLM)",
   "Verify TypeScript Compilation"]

/-- Step names of the timing ledger of a run that reached the execution
wirer. -/
def stepNamesAll : List String := stepNamesNoExec ++ ["Wire and Execute Code"]

/-- Query actually used by the run: options.query || ''. -/
def pipelineQuery (options : RunMCPCodeOptions) : String := options.query.getD ""

/-- Pseudocode produced by step 1 of the run. -/
def pipelinePseudocode (env : PipelineEnv) (tools : Catalog)
    (options : RunMCPCodeOptions) : String :=
  (generatePseudocode (pipelineQuery options) tools env.strategyLLM).1

/-- Filter outcome of step 2 of the run; runMCPCode always passes both
options (resolved against its own defaults) down to the batch filter. -/
def pipelineFilterResult (env : PipelineEnv) (tools : Catalog)
    (options : RunMCPCodeOptions) : Except String FilterToolsResult :=
  filterToolsForQuery (pipelineQuery options) tools env.tinyLLM
    (some (options.maxToolsPerPrompt.getD runMCPCodeDefaultMaxToolsPerPrompt))
    (some (options.maxConcurrentThreads.getD runMCPCodeDefaultMaxConcurrentThreads))

/-- runMCPCode (src/CodeModeMCP.ts): generate pseudocode, filter tools,
synthesize interfaces (throwing when no run environment is configured),
implement and statically verify the candidate program, and only if it
compiles, wire and execute it.  The Boolean of the returned pair instruments
whether the execution wirer (executeCode) was invoked.  A compile failure
returns resultType failure before the wirer; otherwise the result mirrors the
execution success flag. -/
def runMCPCode (env : PipelineEnv) (tools : Catalog) (options : RunMCPCodeOptions) :
    Except String (MCPExecutionResult × Bool) := do
  let filterResult ← pipelineFilterResult env tools options
  if env.hasRunEnvironment = false then
    Except.error "Run environment is required for code generation"
  else do
    let implementResult ← implementCode (pipelineQuery options)
      (pipelinePseudocode env tools options)
      (generateToolsCodeText filterResult.filteredCatalog)
      (synthesizedInterfaceNames filterResult.filteredCatalog)
      env.mainLLM env.verifyTS
    if implementResult.compilesSuccessfully = false then
      pure (MCPExecutionResult.mk ResultType.failure stepNamesNoExec, false)
    else
      pure (MCPExecutionResult.mk
        (if (executeCode implementResult.fullProgram filterResult.filteredCatalog
              env.evalInProcess).1.success
          then ResultType.success else ResultType.failure)
        stepNamesAll, true)

/-- Keys of the Execution Binding Table of a catalog, in first-write order:
the canonical call names executeCode wires (src/steps/executeCode.ts);
colliding names are deduplicated by the Record write semantics. -/
def bindingTableNames (catalog : Catalog) : List String :=
  (buildToolFunctions catalog (listAllToolPaths catalog "")).map (fun e => e.1)

/-- Alignment condition relating the two name derivations of the source: the
capitalized tool name (used by the Interface Synthesizer) agrees with the
uppercase-underscore path transform (used by the Execution Wirer) for every
flattened tool of the catalog. -/
def namesAligned (catalog : Catalog) : Bool :=
  (catalogBatchItems catalog).all (fun it =>
    match it.tool with
    | some t => capitalize t.name == pathToFunctionName it.path
    | none => true)

/-- Reading of the response-parsing claim, token by token: trim and lowercase
the response; a literal none or empty response selects nothing; otherwise
split on commas and keep exactly the tokens that parse as a 1-based index n
with 1 ≤ n ≤ batch size, each mapped to the path of the n-th tool of the
batch, discarding non-numeric and out-of-range tokens. -/
def claimTokenSelection (response : String) (batch : List BatchItem) : List String :=
  let norm := jsToLower (jsTrim response)
  if norm = "none" ∨ norm = "" then []
  else
    (splitCh ',' norm).filterMap (fun token =>
      match jsParseInt (jsTrim token) with
      | none => none
      | some n =>
        if 1 ≤ n ∧ n ≤ (batch.length : Int) then
          (batch[n.toNat - 1]?).map (fun it => it.path)
        else none)

/-- Keys at every level of the catalog contain no dot character (the literal
hypothesis of the resolution claim, weaker than goodKey). -/
def noDotKeys : Catalog → Bool
  | .nil => true
  | .consTool k _ r => decide (¬ '.' ∈ k.data) && noDotKeys r
  | .consSub k s r => decide (¬ '.' ∈ k.data) && noDotKeys s && noDotKeys r

/-- Concrete parameterless tool used by the witnesses. -/
def exTool (nm : String) : MCPTool := MCPTool.mk nm ("tool " ++ nm) []

/-- Concrete well-formed catalog with two tools at paths slack.send and ping,
whose tool names match the canonical path transform. -/
def exCatalog : Catalog :=
  Catalog.consSub "slack"
    (Catalog.consTool "send" (exTool "SLACK_SEND") Catalog.nil)
    (Catalog.consTool "ping" (exTool "PING") Catalog.nil)

/-- Catalog whose single key contains a dot, so its flattened path does not
resolve back through getToolByPath. -/
def exDotCatalog : Catalog := Catalog.consTool "a.b" (exTool "T1") Catalog.nil

/-- Catalog with an empty (dot-free) key: the flattened path of the nested
tool drops the empty prefix and does not resolve. -/
def exEmptyKeyCatalog : Catalog :=
  Catalog.consSub "" (Catalog.consTool "b" (exTool "T2") Catalog.nil) Catalog.nil

/-- Well-formed catalog (nonempty dot-free distinct keys) whose intermediate
key toString is an inherited Object.prototype member name: reconstruction
walks into the inherited builtin and loses the tool. -/
def exProtoKeyCatalog : Catalog :=
  Catalog.consSub "toString" (Catalog.consTool "b" (exTool "T3") Catalog.nil) Catalog.nil

/-- Catalog in which the distinct tool paths a_b and a.b collide under the
uppercase-underscore transform, and tool names differ from the transform. -/
def exCollideCatalog : Catalog :=
  Catalog.consTool "a_b" (exTool "foo")
    (Catalog.consSub "a" (Catalog.consTool "b" (exTool "bar") Catalog.nil) Catalog.nil)

/-- Stub LLM answering every prompt with a fixed response. -/
def llmConst (resp : String) : String → Except String String :=
  fun _ => Except.ok resp

/-- Stub LLM rejecting every prompt. -/
def llmFail (msg : String) : String → Except String String :=
  fun _ => Except.error msg

/-- Pipeline collaborators whose compile check succeeds. -/
def exEnvCompileOk : PipelineEnv :=
  PipelineEnv.mk (llmConst "plan") (llmConst "1")
    (llmConst "async function main() { return 1; } main().then(r => r);")
    (fun _ => (true, [])) (fun _ _ => Except.ok "done") true

/-- Pipeline collaborators whose compile check fails with one diagnostic. -/
def exEnvCompileBad : PipelineEnv :=
  PipelineEnv.mk (llmConst "plan") (llmConst "1") (llmConst "bad code")
    (fun _ => (false, ["Line 1:1 - Cannot find name UNKNOWN_TOOL."]))
    (fun _ _ => Except.ok "done") true

/-- Options of the witnesses: a query, both tuning options omitted. -/
def exOptions : RunMCPCodeOptions :=
  RunMCPCodeOptions.mk (some "get all channels from slack") none none

/-- Single batch of the witness catalog. -/
def exFullBatch : List BatchItem := catalogBatchItems exCatalog

/-- Tool-description block of the witness batch. -/
def exBatchDesc : String := (batchDescriptions exFullBatch).getD ""

/-
Lemma layer.  The catalog claims (round-trip of reconstructCatalog, totality
of path resolution) are proved by relating the string-valued functions of the
source to the segment-level ghost function pathsSegs, via the split/join
lemmas below.
-/

theorem splitChAux_ne_nil (sep : Char) (l : List Char) : splitChAux sep l ≠ [] := by
  induction l with
  | nil => simp [splitChAux]
  | cons c rest ih =>
    simp only [splitChAux]
    cases h : splitChAux sep rest with
    | nil => simp
    | cons w ws => by_cases hc : c = sep <;> simp [hc]

theorem splitChAux_no_sep (sep : Char) (w : List Char) (h : ∀ c ∈ w, c ≠ sep) :
    splitChAux sep w = [w] := by
  induction w with
  | nil => rfl
  | cons c rest ih =>
    have hc : c ≠ sep := h c (by simp)
    have hr : splitChAux sep rest = [rest] := ih (fun x hx => h x (by simp [hx]))
    simp [splitChAux, hr, hc]

theorem splitChAux_append_sep (sep : Char) (w t2 : List Char) (h : ∀ c ∈ w, c ≠ sep) :
    splitChAux sep (w ++ sep :: t2) = w :: splitChAux sep t2 := by
  induction w with
  | nil =>
    show splitChAux sep (sep :: t2) = [] :: splitChAux sep t2
    cases ht : splitChAux sep t2 with
    | nil => exact absurd ht (splitChAux_ne_nil sep t2)
    | cons w2 ws => simp [splitChAux, ht]
  | cons c rest ih =>
    have hc : c ≠ sep := h c (by simp)
    have hr := ih (fun x hx => h x (by simp [hx]))
    simp [splitChAux, hr, hc]

theorem splitCh_no_sep (sep : Char) (s : String) (h : ¬ sep ∈ s.data) :
    splitCh sep s = [s] := by
  unfold splitCh
  rw [splitChAux_no_sep sep s.data (fun c hc => by
    intro he
    exact h (he ▸ hc))]
  rfl

theorem splitCh_joinSep (ss : List String) (h1 : ss ≠ [])
    (h2 : ∀ s ∈ ss, ¬ '.' ∈ s.data) : splitCh '.' (joinSep "." ss) = ss := by
  induction ss with
  | nil => exact absurd rfl h1
  | cons s rest ih =>
    cases rest with
    | nil => exact splitCh_no_sep '.' s (h2 s (by simp))
    | cons s2 rest2 =>
      have hdata : (joinSep "." (s :: s2 :: rest2)).data
          = s.data ++ '.' :: (joinSep "." (s2 :: rest2)).data := by
        show (s ++ "." ++ joinSep "." (s2 :: rest2)).data = _
        simp [String.data_append]
      unfold splitCh
      rw [hdata, splitChAux_append_sep '.' s.data _ (fun c hc => by
        intro he
        exact (h2 s (by simp)) (he ▸ hc))]
      simp only [List.map_cons]
      have hfold : (splitChAux '.' (joinSep "." (s2 :: rest2)).data).map
          (fun l => String.mk l) = s2 :: rest2 :=
        ih (by simp) (fun x hx => h2 x (by simp [hx]))
      rw [hfold]

theorem string_ne_empty_of_data (s : String) (h : s.data ≠ []) : s ≠ "" := by
  intro he
  rw [he] at h
  exact h rfl

theorem append_dot_ne_empty (pre k : String) : pre ++ "." ++ k ≠ "" := by
  intro h
  have : (pre ++ "." ++ k).data = [] := by rw [h]
  simp [String.data_append] at this

theorem goodKey_ne_empty (k : String) (h : goodKey k = true) : k ≠ "" := by
  simp only [goodKey, Bool.and_eq_true, decide_eq_true_eq] at h
  exact string_ne_empty_of_data k h.1

theorem goodKey_no_dot (k : String) (h : goodKey k = true) : ¬ '.' ∈ k.data := by
  simp only [goodKey, Bool.and_eq_true, decide_eq_true_eq] at h
  exact h.2

theorem joinSep_cons_cons (s : String) (segs : List String) (h : segs ≠ []) :
    joinSep "." (s :: segs) = s ++ "." ++ joinSep "." segs := by
  cases segs with
  | nil => exact absurd rfl h
  | cons a t2 => rfl

theorem joinPre_chain (pre k : String) (x : String) (hk : k ≠ "") :
    joinPre (joinPre pre k) x = joinPre pre (k ++ "." ++ x) := by
  by_cases hp : pre = ""
  · subst hp
    simp [joinPre, hk]
  · have h1 : joinPre pre k = pre ++ "." ++ k := by simp [joinPre, hp]
    have h2 : pre ++ "." ++ k ≠ "" := append_dot_ne_empty pre k
    simp only [joinPre, h1, if_neg hp, if_neg h2]
    simp [String.append_assoc]

theorem pathsSegs_ne_nil (c : Catalog) : ∀ segs ∈ pathsSegs c, segs ≠ [] := by
  induction c with
  | nil => intro segs h; simp [pathsSegs] at h
  | consTool k t r ihr =>
    intro segs h
    simp only [pathsSegs, List.mem_cons] at h
    rcases h with h | h
    · simp [h]
    · exact ihr segs h
  | consSub k s r ihs ihr =>
    intro segs h
    simp only [pathsSegs, List.mem_append, List.mem_map] at h
    rcases h with ⟨a, _, h⟩ | h
    · simp [← h]
    · exact ihr segs h

theorem pathsSegs_good (c : Catalog) (hg : allKeysGood c = true) :
    ∀ segs ∈ pathsSegs c, ∀ s2 ∈ segs, goodKey s2 = true := by
  induction c with
  | nil => intro segs h; simp [pathsSegs] at h
  | consTool k t r ihr =>
    simp only [allKeysGood, Bool.and_eq_true] at hg
    intro segs h
    simp only [pathsSegs, List.mem_cons] at h
    rcases h with h | h
    · intro s2 hs2
      rw [h] at hs2
      simp at hs2
      rw [hs2]
      exact hg.1
    · exact ihr hg.2 segs h
  | consSub k s r ihs ihr =>
    simp only [allKeysGood, Bool.and_eq_true] at hg
    intro segs h
    simp only [pathsSegs, List.mem_append, List.mem_map] at h
    rcases h with ⟨a, ha, h⟩ | h
    · intro s2 hs2
      rw [← h] at hs2
      simp only [List.mem_cons] at hs2
      rcases hs2 with hs2 | hs2
      · rw [hs2]; exact hg.1.1
      · exact ihs hg.1.2 a ha s2 hs2
    · exact ihr hg.2 segs h

theorem pathsSegs_safe (c : Catalog) (hg : safeKeys c = true) :
    ∀ segs ∈ pathsSegs c, ∀ s2 ∈ segs, ¬ s2 ∈ protoProps := by
  induction c with
  | nil => intro segs h; simp [pathsSegs] at h
  | consTool k t r ihr =>
    simp only [safeKeys, Bool.and_eq_true, decide_eq_true_eq] at hg
    intro segs h
    simp only [pathsSegs, List.mem_cons] at h
    rcases h with h | h
    · intro s2 hs2
      rw [h] at hs2
      simp at hs2
      rw [hs2]
      exact hg.1
    · exact ihr hg.2 segs h
  | consSub k s r ihs ihr =>
    simp only [safeKeys, Bool.and_eq_true, decide_eq_true_eq] at hg
    intro segs h
    simp only [pathsSegs, List.mem_append, List.mem_map] at h
    rcases h with ⟨a, ha, h⟩ | h
    · intro s2 hs2
      rw [← h] at hs2
      simp only [List.mem_cons] at hs2
      rcases hs2 with hs2 | hs2
      · rw [hs2]; exact hg.1.1
      · exact ihs hg.1.2 a ha s2 hs2
    · exact ihr hg.2 segs h

theorem pathsSegs_head_mem_keys (c : Catalog) :
    ∀ segs ∈ pathsSegs c, ∃ k t2, segs = k :: t2 ∧ k ∈ keys c := by
  induction c with
  | nil => intro segs h; simp [pathsSegs] at h
  | consTool k t r ihr =>
    intro segs h
    simp only [pathsSegs, List.mem_cons] at h
    rcases h with h | h
    · exact ⟨k, [], by simp [h, keys]⟩
    · obtain ⟨k2, t2, he, hm⟩ := ihr segs h
      exact ⟨k2, t2, he, by simp [keys, hm]⟩
  | consSub k s r ihs ihr =>
    intro segs h
    simp only [pathsSegs, List.mem_append, List.mem_map] at h
    rcases h with ⟨a, _, h⟩ | h
    · exact ⟨k, a, by simp [← h, keys]⟩
    · obtain ⟨k2, t2, he, hm⟩ := ihr segs h
      exact ⟨k2, t2, he, by simp [keys, hm]⟩

theorem listAllToolPaths_eq_map (c : Catalog) (hg : allKeysGood c = true) :
    ∀ pre, listAllToolPaths c pre
      = (pathsSegs c).map (fun segs => joinPre pre (joinSep "." segs)) := by
  induction c with
  | nil => intro pre; rfl
  | consTool k t r ihr =>
    simp only [allKeysGood, Bool.and_eq_true] at hg
    intro pre
    simp only [listAllToolPaths, pathsSegs, List.map_cons, ihr hg.2]
    rfl
  | consSub k s r ihs ihr =>
    simp only [allKeysGood, Bool.and_eq_true] at hg
    intro pre
    simp only [listAllToolPaths, pathsSegs, List.map_append, List.map_map]
    rw [ihs hg.1.2, ihr hg.2]
    congr 1
    apply List.map_congr_left
    intro segs hs
    show joinPre (joinPre pre k) (joinSep "." segs) = joinPre pre (joinSep "." (k :: segs))
    rw [joinSep_cons_cons k segs (pathsSegs_ne_nil s segs hs)]
    exact joinPre_chain pre k _ (goodKey_ne_empty k hg.1.1)

theorem wfCatalog_allKeysGood (c : Catalog) (h : wfCatalog c = true) : allKeysGood c = true := by
  simp only [wfCatalog, Bool.and_eq_true] at h
  exact h.1

theorem wfCatalog_nodupKeys (c : Catalog) (h : wfCatalog c = true) : nodupKeys c = true := by
  simp only [wfCatalog, Bool.and_eq_true] at h
  exact h.2

theorem getToolSegs_of_pathsSegs (c : Catalog) (hnd : nodupKeys c = true) :
    ∀ segs ∈ pathsSegs c, ∃ t, getToolSegs c segs = some t := by
  induction c with
  | nil => intro segs h; simp [pathsSegs] at h
  | consTool k t r ihr =>
    simp only [nodupKeys, Bool.and_eq_true, decide_eq_true_eq] at hnd
    intro segs h
    simp only [pathsSegs, List.mem_cons] at h
    rcases h with h | h
    · subst h
      exact ⟨t, by simp [getToolSegs, findKey]⟩
    · obtain ⟨k2, t2, he, hk2⟩ := pathsSegs_head_mem_keys r segs h
      have hne : ¬ (k = k2) := fun heq => hnd.1 (heq ▸ hk2)
      obtain ⟨t3, ht3⟩ := ihr hnd.2 segs h
      refine ⟨t3, ?_⟩
      rw [he] at ht3 ⊢
      simp only [getToolSegs, findKey, if_neg hne]
      simp only [getToolSegs] at ht3
      exact ht3
  | consSub k s r ihs ihr =>
    simp only [nodupKeys, Bool.and_eq_true, decide_eq_true_eq] at hnd
    intro segs h
    simp only [pathsSegs, List.mem_append, List.mem_map] at h
    rcases h with ⟨a, ha, hh⟩ | h
    · obtain ⟨t3, ht3⟩ := ihs hnd.1.2 a ha
      refine ⟨t3, ?_⟩
      rw [← hh]
      simp [getToolSegs, findKey, ht3]
    · obtain ⟨k2, t2, he, hk2⟩ := pathsSegs_head_mem_keys r segs h
      have hne : ¬ (k = k2) := fun heq => hnd.1.1 (heq ▸ hk2)
      obtain ⟨t3, ht3⟩ := ihr hnd.2 segs h
      refine ⟨t3, ?_⟩
      rw [he] at ht3 ⊢
      simp only [getToolSegs, findKey, if_neg hne]
      simp only [getToolSegs] at ht3
      exact ht3

theorem splitCh_of_pathsSegs (c : Catalog) (hg : allKeysGood c = true)
    (segs : List String) (hsegs : segs ∈ pathsSegs c) :
    splitCh '.' (joinPre "" (joinSep "." segs)) = segs := by
  have hne := pathsSegs_ne_nil c segs hsegs
  have hgood := pathsSegs_good c hg segs hsegs
  have hpre : joinPre "" (joinSep "." segs) = joinSep "." segs := by simp [joinPre]
  rw [hpre]
  exact splitCh_joinSep segs hne (fun s hs => goodKey_no_dot s (hgood s hs))

theorem getToolByPath_total (c : Catalog) (hwf : wfCatalog c = true) :
    ∀ p ∈ listAllToolPaths c "", ∃ t, getToolByPath c p = some t := by
  have hg := wfCatalog_allKeysGood c hwf
  have hnd := wfCatalog_nodupKeys c hwf
  intro p hp
  rw [listAllToolPaths_eq_map c hg ""] at hp
  simp only [List.mem_map] at hp
  obtain ⟨segs, hsegs, hpe⟩ := hp
  unfold getToolByPath
  rw [← hpe, splitCh_of_pathsSegs c hg segs hsegs]
  exact getToolSegs_of_pathsSegs c hnd segs hsegs

/-- Paths contributed below one written entry value: a tool contributes the
empty continuation, a sub-catalog its own path segments. -/
def valueSegs : (MCPTool ⊕ Catalog) → List (List String)
  | Sum.inl _ => [[]]
  | Sum.inr s => pathsSegs s

/-- Key-distinctness of one written entry value. -/
def valueNodup : (MCPTool ⊕ Catalog) → Bool
  | Sum.inl _ => true
  | Sum.inr s => nodupKeys s

/-- Key goodness of one written entry value. -/
def valueGood : (MCPTool ⊕ Catalog) → Bool
  | Sum.inl _ => true
  | Sum.inr s => allKeysGood s

theorem pathsSegs_consEntry (k : String) (v : MCPTool ⊕ Catalog) (r : Catalog) :
    pathsSegs (consEntry k v r) = (valueSegs v).map (fun q => k :: q) ++ pathsSegs r := by
  cases v <;> rfl

theorem keys_consEntry (k : String) (v : MCPTool ⊕ Catalog) (r : Catalog) :
    keys (consEntry k v r) = k :: keys r := by
  cases v <;> rfl

theorem head_ne_of_not_mem_keys (r : Catalog) (k : String) (hk : ¬ k ∈ keys r) :
    ∀ q ∈ pathsSegs r, q.head? ≠ some k := by
  intro q hq
  obtain ⟨k2, t2, he, hm⟩ := pathsSegs_head_mem_keys r q hq
  rw [he]
  simp only [List.head?_cons, ne_eq, Option.some.injEq]
  exact fun heq => hk (heq ▸ hm)

theorem findKey_none_iff (c : Catalog) (k : String) :
    findKey c k = none ↔ ¬ k ∈ keys c := by
  induction c with
  | nil => simp [findKey, keys]
  | consTool k2 t r ih =>
    by_cases h : k2 = k
    · subst h
      simp [findKey, keys]
    · have h2 : ¬ k = k2 := fun he => h he.symm
      simp [findKey, keys, h, h2, ih]
  | consSub k2 s r ihs ihr =>
    by_cases h : k2 = k
    · subst h
      simp [findKey, keys]
    · have h2 : ¬ k = k2 := fun he => h he.symm
      simp [findKey, keys, h, h2, ihr]

theorem findKey_inr_nodup (c : Catalog) (k : String) (s : Catalog)
    (hnd : nodupKeys c = true) (h : findKey c k = some (Sum.inr s)) :
    nodupKeys s = true := by
  induction c with
  | nil => simp [findKey] at h
  | consTool k2 t r ih =>
    simp only [nodupKeys, Bool.and_eq_true] at hnd
    by_cases hkk : k2 = k
    · simp [findKey, hkk] at h
    · simp only [findKey, if_neg hkk] at h
      exact ih hnd.2 h
  | consSub k2 s2 r ihs ihr =>
    simp only [nodupKeys, Bool.and_eq_true] at hnd
    by_cases hkk : k2 = k
    · simp only [findKey, if_pos hkk, Option.some.injEq, Sum.inr.injEq] at h
      exact h ▸ hnd.1.2
    · simp only [findKey, if_neg hkk] at h
      exact ihr hnd.2 h

theorem findKey_inr_good (c : Catalog) (k : String) (s : Catalog)
    (hg : allKeysGood c = true) (h : findKey c k = some (Sum.inr s)) :
    allKeysGood s = true := by
  induction c with
  | nil => simp [findKey] at h
  | consTool k2 t r ih =>
    simp only [allKeysGood, Bool.and_eq_true] at hg
    by_cases hkk : k2 = k
    · simp [findKey, hkk] at h
    · simp only [findKey, if_neg hkk] at h
      exact ih hg.2 h
  | consSub k2 s2 r ihs ihr =>
    simp only [allKeysGood, Bool.and_eq_true] at hg
    by_cases hkk : k2 = k
    · simp only [findKey, if_pos hkk, Option.some.injEq, Sum.inr.injEq] at h
      exact h ▸ hg.1.2
    · simp only [findKey, if_neg hkk] at h
      exact ihr hg.2 h

theorem keys_setEntry_mem (c : Catalog) (k : String) (v : MCPTool ⊕ Catalog)
    (h : k ∈ keys c) : keys (setEntry c k v) = keys c := by
  induction c with
  | nil => simp [keys] at h
  | consTool k2 t r ih =>
    by_cases hkk : k2 = k
    · simp [setEntry, if_pos hkk, keys_consEntry, keys, hkk]
    · have hm : k ∈ keys r := by
        simp only [keys, List.mem_cons] at h
        rcases h with h | h
        · exact absurd h.symm hkk
        · exact h
      simp [setEntry, if_neg hkk, keys, ih hm]
  | consSub k2 s r ihs ihr =>
    by_cases hkk : k2 = k
    · simp [setEntry, if_pos hkk, keys_consEntry, keys, hkk]
    · have hm : k ∈ keys r := by
        simp only [keys, List.mem_cons] at h
        rcases h with h | h
        · exact absurd h.symm hkk
        · exact h
      simp [setEntry, if_neg hkk, keys, ihr hm]

theorem keys_setEntry_not_mem (c : Catalog) (k : String) (v : MCPTool ⊕ Catalog)
    (h : ¬ k ∈ keys c) : keys (setEntry c k v) = keys c ++ [k] := by
  induction c with
  | nil => cases v <;> rfl
  | consTool k2 t r ih =>
    have hkk : ¬ k2 = k := fun he => h (by simp [keys, he])
    have hm : ¬ k ∈ keys r := fun hm => h (by simp [keys, hm])
    simp [setEntry, if_neg hkk, keys, ih hm]
  | consSub k2 s r ihs ihr =>
    have hkk : ¬ k2 = k := fun he => h (by simp [keys, he])
    have hm : ¬ k ∈ keys r := fun hm => h (by simp [keys, hm])
    simp [setEntry, if_neg hkk, keys, ihr hm]

theorem nodupKeys_consEntry (k : String) (v : MCPTool ⊕ Catalog) (r : Catalog) :
    nodupKeys (consEntry k v r)
      = (decide (¬ k ∈ keys r) && valueNodup v && nodupKeys r) := by
  cases v with
  | inl t => simp [consEntry, nodupKeys, valueNodup]
  | inr s => simp only [consEntry, nodupKeys, valueNodup]

theorem allKeysGood_consEntry (k : String) (v : MCPTool ⊕ Catalog) (r : Catalog) :
    allKeysGood (consEntry k v r) = (goodKey k && valueGood v && allKeysGood r) := by
  cases v with
  | inl t => simp [consEntry, allKeysGood, valueGood]
  | inr s => simp [consEntry, allKeysGood, valueGood]

theorem nodupKeys_setEntry (c : Catalog) (k : String) (v : MCPTool ⊕ Catalog)
    (hc : nodupKeys c = true) (hv : valueNodup v = true) :
    nodupKeys (setEntry c k v) = true := by
  induction c with
  | nil =>
    simp only [setEntry]
    simp [nodupKeys_consEntry, keys, hv, nodupKeys]
  | consTool k2 t r ih =>
    simp only [nodupKeys, Bool.and_eq_true, decide_eq_true_eq] at hc
    by_cases hkk : k2 = k
    · simp only [setEntry, if_pos hkk]
      subst hkk
      simp [nodupKeys_consEntry, hc.1, hc.2, hv]
    · simp only [setEntry, if_neg hkk]
      simp only [nodupKeys, Bool.and_eq_true, decide_eq_true_eq]
      refine ⟨?_, ih hc.2⟩
      by_cases hm : k ∈ keys r
      · rw [keys_setEntry_mem r k v hm]
        exact hc.1
      · rw [keys_setEntry_not_mem r k v hm]
        simp [hc.1, hkk]
  | consSub k2 s r ihs ihr =>
    simp only [nodupKeys, Bool.and_eq_true, decide_eq_true_eq] at hc
    by_cases hkk : k2 = k
    · simp only [setEntry, if_pos hkk]
      subst hkk
      simp [nodupKeys_consEntry, hc.1.1, hc.2, hv]
    · simp only [setEntry, if_neg hkk]
      simp only [nodupKeys, Bool.and_eq_true, decide_eq_true_eq]
      refine ⟨⟨?_, hc.1.2⟩, ihr hc.2⟩
      by_cases hm : k ∈ keys r
      · rw [keys_setEntry_mem r k v hm]
        exact hc.1.1
      · rw [keys_setEntry_not_mem r k v hm]
        simp [hc.1.1, hkk]

theorem allKeysGood_setEntry (c : Catalog) (k : String) (v : MCPTool ⊕ Catalog)
    (hc : allKeysGood c = true) (hk : goodKey k = true) (hv : valueGood v = true) :
    allKeysGood (setEntry c k v) = true := by
  induction c with
  | nil =>
    simp only [setEntry]
    simp [allKeysGood_consEntry, hk, hv, allKeysGood]
  | consTool k2 t r ih =>
    simp only [allKeysGood, Bool.and_eq_true] at hc
    by_cases hkk : k2 = k
    · simp only [setEntry, if_pos hkk]
      simp [allKeysGood_consEntry, hk, hv, hc.2]
    · simp only [setEntry, if_neg hkk]
      simp only [allKeysGood, Bool.and_eq_true]
      exact ⟨hc.1, ih hc.2⟩
  | consSub k2 s r ihs ihr =>
    simp only [allKeysGood, Bool.and_eq_true] at hc
    by_cases hkk : k2 = k
    · simp only [setEntry, if_pos hkk]
      simp [allKeysGood_consEntry, hk, hv, hc.2]
    · simp only [setEntry, if_neg hkk]
      simp only [allKeysGood, Bool.and_eq_true]
      exact ⟨⟨hc.1.1, hc.1.2⟩, ihr hc.2⟩

theorem findKey_some_paths (c : Catalog) (k : String) (v : MCPTool ⊕ Catalog)
    (hnd : nodupKeys c = true) (h : findKey c k = some v) :
    ∀ q, (q ∈ pathsSegs c ∧ q.head? = some k) ↔ ∃ q2 ∈ valueSegs v, q = k :: q2 := by
  induction c with
  | nil => simp [findKey] at h
  | consTool k2 t r ih =>
    simp only [nodupKeys, Bool.and_eq_true, decide_eq_true_eq] at hnd
    by_cases hkk : k2 = k
    · subst hkk
      simp [findKey] at h
      subst h
      intro q
      constructor
      · rintro ⟨hq, hhead⟩
        simp only [pathsSegs, List.mem_cons] at hq
        rcases hq with hq | hq
        · exact ⟨[], by simp [valueSegs, hq]⟩
        · exact absurd hhead (head_ne_of_not_mem_keys r k2 hnd.1 q hq)
      · rintro ⟨q2, hq2, rfl⟩
        simp only [valueSegs, List.mem_singleton] at hq2
        subst hq2
        simp [pathsSegs]
    · simp only [findKey, if_neg hkk] at h
      intro q
      rw [← ih hnd.2 h q]
      simp only [pathsSegs, List.mem_cons]
      constructor
      · rintro ⟨hq | hq, hhead⟩
        · rw [hq] at hhead
          simp only [List.head?_cons, Option.some.injEq] at hhead
          exact absurd hhead hkk
        · exact ⟨hq, hhead⟩
      · rintro ⟨hq, hhead⟩
        exact ⟨Or.inr hq, hhead⟩
  | consSub k2 s r ihs ihr =>
    simp only [nodupKeys, Bool.and_eq_true, decide_eq_true_eq] at hnd
    by_cases hkk : k2 = k
    · subst hkk
      simp [findKey] at h
      subst h
      intro q
      constructor
      · rintro ⟨hq, hhead⟩
        simp only [pathsSegs, List.mem_append, List.mem_map] at hq
        rcases hq with ⟨a, ha, hae⟩ | hq
        · exact ⟨a, by simpa [valueSegs] using ha, hae.symm⟩
        · exact absurd hhead (head_ne_of_not_mem_keys r k2 hnd.1.1 q hq)
      · rintro ⟨q2, hq2, rfl⟩
        simp only [valueSegs] at hq2
        constructor
        · simp only [pathsSegs, List.mem_append, List.mem_map]
          exact Or.inl ⟨q2, hq2, rfl⟩
        · simp
    · simp only [findKey, if_neg hkk] at h
      intro q
      rw [← ihr hnd.2 h q]
      simp only [pathsSegs, List.mem_append, List.mem_map]
      constructor
      · rintro ⟨⟨a, _, hae⟩ | hq, hhead⟩
        · rw [← hae] at hhead
          simp only [List.head?_cons, Option.some.injEq] at hhead
          exact absurd hhead hkk
        · exact ⟨hq, hhead⟩
      · rintro ⟨hq, hhead⟩
        exact ⟨Or.inr hq, hhead⟩

theorem pathsSegs_setEntry (c : Catalog) (k : String) (v : MCPTool ⊕ Catalog)
    (hnd : nodupKeys c = true) :
    ∀ q, q ∈ pathsSegs (setEntry c k v)
      ↔ (∃ q2 ∈ valueSegs v, q = k :: q2) ∨ (q ∈ pathsSegs c ∧ q.head? ≠ some k) := by
  induction c with
  | nil =>
    intro q
    simp only [setEntry, pathsSegs_consEntry, pathsSegs, List.append_nil, List.mem_map,
      List.not_mem_nil, false_and, or_false]
    constructor
    · rintro ⟨a, ha, hae⟩
      exact ⟨a, ha, hae.symm⟩
    · rintro ⟨q2, hq2, rfl⟩
      exact ⟨q2, hq2, rfl⟩
  | consTool k2 t r ih =>
    simp only [nodupKeys, Bool.and_eq_true, decide_eq_true_eq] at hnd
    by_cases hkk : k2 = k
    · subst hkk
      have hset : setEntry (Catalog.consTool k2 t r) k2 v = consEntry k2 v r := by
        simp [setEntry]
      rw [hset]
      intro q
      rw [pathsSegs_consEntry]
      constructor
      · intro hq
        rcases List.mem_append.1 hq with hq | hq
        · obtain ⟨a, ha, hae⟩ := List.mem_map.1 hq
          exact Or.inl ⟨a, ha, hae.symm⟩
        · exact Or.inr ⟨by simp [pathsSegs, hq],
            head_ne_of_not_mem_keys r k2 hnd.1 q hq⟩
      · rintro (⟨q2, hq2, rfl⟩ | ⟨hq, hhead⟩)
        · exact List.mem_append.2 (Or.inl (List.mem_map.2 ⟨q2, hq2, rfl⟩))
        · simp only [pathsSegs, List.mem_cons] at hq
          rcases hq with hq | hq
          · rw [hq] at hhead
            simp at hhead
          · exact List.mem_append.2 (Or.inr hq)
    · have hset : setEntry (Catalog.consTool k2 t r) k v
          = Catalog.consTool k2 t (setEntry r k v) := by simp [setEntry, hkk]
      rw [hset]
      intro q
      simp only [pathsSegs, List.mem_cons]
      constructor
      · rintro (rfl | hq)
        · exact Or.inr ⟨Or.inl rfl, by simp [hkk]⟩
        · rcases (ih hnd.2 q).1 hq with h1 | ⟨hq2, hh⟩
          · exact Or.inl h1
          · exact Or.inr ⟨Or.inr hq2, hh⟩
      · rintro (⟨q2, hq2, rfl⟩ | ⟨hq | hq, hh⟩)
        · exact Or.inr ((ih hnd.2 _).2 (Or.inl ⟨q2, hq2, rfl⟩))
        · exact Or.inl hq
        · exact Or.inr ((ih hnd.2 q).2 (Or.inr ⟨hq, hh⟩))
  | consSub k2 s r ihs ihr =>
    simp only [nodupKeys, Bool.and_eq_true, decide_eq_true_eq] at hnd
    by_cases hkk : k2 = k
    · subst hkk
      have hset : setEntry (Catalog.consSub k2 s r) k2 v = consEntry k2 v r := by
        simp [setEntry]
      rw [hset]
      intro q
      rw [pathsSegs_consEntry]
      constructor
      · intro hq
        rcases List.mem_append.1 hq with hq | hq
        · obtain ⟨a, ha, hae⟩ := List.mem_map.1 hq
          exact Or.inl ⟨a, ha, hae.symm⟩
        · exact Or.inr ⟨by simp [pathsSegs, hq],
            head_ne_of_not_mem_keys r k2 hnd.1.1 q hq⟩
      · rintro (⟨q2, hq2, rfl⟩ | ⟨hq, hhead⟩)
        · exact List.mem_append.2 (Or.inl (List.mem_map.2 ⟨q2, hq2, rfl⟩))
        · simp only [pathsSegs, List.mem_append, List.mem_map] at hq
          rcases hq with ⟨a, _, hae⟩ | hq
          · rw [← hae] at hhead
            simp at hhead
          · exact List.mem_append.2 (Or.inr hq)
    · have hset : setEntry (Catalog.consSub k2 s r) k v
          = Catalog.consSub k2 s (setEntry r k v) := by simp [setEntry, hkk]
      rw [hset]
      intro q
      simp only [pathsSegs, List.mem_append, List.mem_map]
      constructor
      · rintro (⟨a, ha, hae⟩ | hq)
        · exact Or.inr ⟨Or.inl ⟨a, ha, hae⟩, by rw [← hae]; simp [hkk]⟩
        · rcases (ihr hnd.2 q).1 hq with h1 | ⟨hq2, hh⟩
          · exact Or.inl h1
          · exact Or.inr ⟨Or.inr hq2, hh⟩
      · rintro (⟨q2, hq2, rfl⟩ | ⟨⟨a, ha, hae⟩ | hq, hh⟩)
        · exact Or.inr ((ihr hnd.2 _).2 (Or.inl ⟨q2, hq2, rfl⟩))
        · exact Or.inl ⟨a, ha, hae⟩
        · exact Or.inr ((ihr hnd.2 q).2 (Or.inr ⟨hq, hh⟩))

/-- One key sequence extends another (segment-level path extension). -/
def segPre (a b : List String) : Prop := ∃ t2, a ++ t2 = b

theorem pathsSegs_pre_free (c : Catalog) (hnd : nodupKeys c = true) :
    ∀ a ∈ pathsSegs c, ∀ b ∈ pathsSegs c, segPre a b → a = b := by
  induction c with
  | nil => intro a ha; simp [pathsSegs] at ha
  | consTool k t r ihr =>
    simp only [nodupKeys, Bool.and_eq_true, decide_eq_true_eq] at hnd
    intro a ha b hb hpre
    simp only [pathsSegs, List.mem_cons] at ha hb
    rcases ha with ha | ha <;> rcases hb with hb | hb
    · rw [ha, hb]
    · obtain ⟨t2, ht2⟩ := hpre
      rw [ha] at ht2
      have hhead : b.head? = some k := by rw [← ht2]; simp
      exact absurd hhead (head_ne_of_not_mem_keys r k hnd.1 b hb)
    · obtain ⟨t2, ht2⟩ := hpre
      rw [hb] at ht2
      obtain ⟨k2, t3, he, hm⟩ := pathsSegs_head_mem_keys r a ha
      rw [he] at ht2
      simp only [List.cons_append, List.cons_eq_cons] at ht2
      exact absurd (ht2.1 ▸ hm) hnd.1
    · exact ihr hnd.2 a ha b hb hpre
  | consSub k s r ihs ihr =>
    simp only [nodupKeys, Bool.and_eq_true, decide_eq_true_eq] at hnd
    intro a ha b hb hpre
    simp only [pathsSegs, List.mem_append, List.mem_map] at ha hb
    rcases ha with ⟨a2, ha2, hae⟩ | ha <;> rcases hb with ⟨b2, hb2, hbe⟩ | hb
    · obtain ⟨t2, ht2⟩ := hpre
      rw [← hae, ← hbe] at ht2
      simp only [List.cons_append, List.cons_eq_cons] at ht2
      have : a2 = b2 := ihs hnd.1.2 a2 ha2 b2 hb2 ⟨t2, ht2.2⟩
      rw [← hae, ← hbe, this]
    · obtain ⟨t2, ht2⟩ := hpre
      rw [← hae] at ht2
      have hhead : b.head? = some k := by rw [← ht2]; simp
      exact absurd hhead (head_ne_of_not_mem_keys r k hnd.1.1 b hb)
    · obtain ⟨t2, ht2⟩ := hpre
      rw [← hbe] at ht2
      obtain ⟨k2, t3, he, hm⟩ := pathsSegs_head_mem_keys r a ha
      rw [he] at ht2
      simp only [List.cons_append, List.cons_eq_cons] at ht2
      exact absurd (ht2.1 ▸ hm) hnd.1.1
    · exact ihr hnd.2 a ha b hb hpre

theorem findKey_inl_mem (c : Catalog) (k : String) (t : MCPTool)
    (h : findKey c k = some (Sum.inl t)) : [k] ∈ pathsSegs c := by
  induction c with
  | nil => simp [findKey] at h
  | consTool k2 t2 r ih =>
    by_cases hkk : k2 = k
    · subst hkk
      simp [pathsSegs]
    · simp only [findKey, if_neg hkk] at h
      simp only [pathsSegs, List.mem_cons]
      exact Or.inr (ih h)
  | consSub k2 s r ihs ihr =>
    by_cases hkk : k2 = k
    · simp [findKey, hkk] at h
    · simp only [findKey, if_neg hkk] at h
      simp only [pathsSegs, List.mem_append]
      exact Or.inr (ihr h)

theorem nodupKeys_insertSegs : ∀ (segs : List String) (acc : Catalog) (t : MCPTool),
    nodupKeys acc = true → nodupKeys (insertSegs acc segs t) = true := by
  intro segs
  induction segs with
  | nil => intro acc t h; exact h
  | cons k rest ih =>
    intro acc t h
    cases rest with
    | nil =>
      cases hf : findKey acc k with
      | some v =>
        have hset : insertSegs acc [k] t = setEntry acc k (Sum.inl t) := by
          simp [insertSegs, hf]
        rw [hset]
        exact nodupKeys_setEntry acc k (Sum.inl t) h rfl
      | none =>
        by_cases hkp : k = "__proto__"
        · have hset : insertSegs acc [k] t = acc := by
            subst hkp
            simp [insertSegs, hf]
          rw [hset]
          exact h
        · have hset : insertSegs acc [k] t = setEntry acc k (Sum.inl t) := by
            simp [insertSegs, hf, hkp]
          rw [hset]
          exact nodupKeys_setEntry acc k (Sum.inl t) h rfl
    | cons k2 rest2 =>
      cases hf : findKey acc k with
      | none =>
        by_cases hkp : k ∈ protoProps
        · have hset : insertSegs acc (k :: k2 :: rest2) t = acc := by
            simp [insertSegs, hf, hkp]
          rw [hset]
          exact h
        · have hset : insertSegs acc (k :: k2 :: rest2) t
              = setEntry acc k (Sum.inr (insertSegs Catalog.nil (k2 :: rest2) t)) := by
            simp [insertSegs, hf, hkp]
          rw [hset]
          exact nodupKeys_setEntry acc k _ h (ih Catalog.nil t rfl)
      | some v =>
        cases v with
        | inl t2 =>
          have hset : insertSegs acc (k :: k2 :: rest2) t = acc := by
            simp [insertSegs, hf]
          rw [hset]
          exact h
        | inr sub =>
          have hsub := findKey_inr_nodup acc k sub h hf
          have hset : insertSegs acc (k :: k2 :: rest2) t
              = setEntry acc k (Sum.inr (insertSegs sub (k2 :: rest2) t)) := by
            simp [insertSegs, hf]
          rw [hset]
          exact nodupKeys_setEntry acc k _ h (ih sub t hsub)

theorem allKeysGood_insertSegs : ∀ (segs : List String) (acc : Catalog) (t : MCPTool),
    allKeysGood acc = true → (∀ s2 ∈ segs, goodKey s2 = true) →
    allKeysGood (insertSegs acc segs t) = true := by
  intro segs
  induction segs with
  | nil => intro acc t h _; exact h
  | cons k rest ih =>
    intro acc t h hsegs
    have hk : goodKey k = true := hsegs k (by simp)
    have hrest : ∀ s2 ∈ rest, goodKey s2 = true := fun s2 hs2 => hsegs s2 (by simp [hs2])
    cases rest with
    | nil =>
      cases hf : findKey acc k with
      | some v =>
        have hset : insertSegs acc [k] t = setEntry acc k (Sum.inl t) := by
          simp [insertSegs, hf]
        rw [hset]
        exact allKeysGood_setEntry acc k (Sum.inl t) h hk rfl
      | none =>
        by_cases hkp : k = "__proto__"
        · have hset : insertSegs acc [k] t = acc := by
            subst hkp
            simp [insertSegs, hf]
          rw [hset]
          exact h
        · have hset : insertSegs acc [k] t = setEntry acc k (Sum.inl t) := by
            simp [insertSegs, hf, hkp]
          rw [hset]
          exact allKeysGood_setEntry acc k (Sum.inl t) h hk rfl
    | cons k2 rest2 =>
      cases hf : findKey acc k with
      | none =>
        by_cases hkp : k ∈ protoProps
        · have hset : insertSegs acc (k :: k2 :: rest2) t = acc := by
            simp [insertSegs, hf, hkp]
          rw [hset]
          exact h
        · have hset : insertSegs acc (k :: k2 :: rest2) t
              = setEntry acc k (Sum.inr (insertSegs Catalog.nil (k2 :: rest2) t)) := by
            simp [insertSegs, hf, hkp]
          rw [hset]
          exact allKeysGood_setEntry acc k _ h hk (ih Catalog.nil t rfl hrest)
      | some v =>
        cases v with
        | inl t2 =>
          have hset : insertSegs acc (k :: k2 :: rest2) t = acc := by
            simp [insertSegs, hf]
          rw [hset]
          exact h
        | inr sub =>
          have hsub := findKey_inr_good acc k sub h hf
          have hset : insertSegs acc (k :: k2 :: rest2) t
              = setEntry acc k (Sum.inr (insertSegs sub (k2 :: rest2) t)) := by
            simp [insertSegs, hf]
          rw [hset]
          exact allKeysGood_setEntry acc k _ h hk (ih sub t hsub hrest)

theorem pathsSegs_insertSegs : ∀ (segs : List String) (acc : Catalog) (t : MCPTool),
    nodupKeys acc = true → segs ≠ [] →
    (∀ s2 ∈ segs, ¬ s2 ∈ protoProps) →
    (∀ q ∈ pathsSegs acc, (segPre q segs → q = segs) ∧ (segPre segs q → segs = q)) →
    ∀ q, q ∈ pathsSegs (insertSegs acc segs t) ↔ q = segs ∨ q ∈ pathsSegs acc := by
  intro segs
  induction segs with
  | nil => intro acc t _ hne _ _; exact absurd rfl hne
  | cons k rest ih =>
    intro acc t hnd hne hsafe hcompat
    have hknp : ¬ k ∈ protoProps := hsafe k (by simp)
    have hrsafe : ∀ s2 ∈ rest, ¬ s2 ∈ protoProps := fun s2 hs2 => hsafe s2 (by simp [hs2])
    cases rest with
    | nil =>
      intro q
      have hkp : ¬ k = "__proto__" := by
        intro he
        rw [he] at hknp
        exact hknp (by decide)
      have hset : insertSegs acc [k] t = setEntry acc k (Sum.inl t) := by
        cases hf : findKey acc k <;> simp [insertSegs, hf, hkp]
      rw [hset, pathsSegs_setEntry acc k (Sum.inl t) hnd q]
      constructor
      · rintro (⟨q2, hq2, rfl⟩ | ⟨hq, _⟩)
        · simp only [valueSegs, List.mem_singleton] at hq2
          subst hq2
          exact Or.inl rfl
        · exact Or.inr hq
      · rintro (rfl | hq)
        · exact Or.inl ⟨[], by simp [valueSegs]⟩
        · by_cases hh : q.head? = some k
          · left
            rcases q with _ | ⟨x, xs⟩
            · simp at hh
            · simp only [List.head?_cons, Option.some.injEq] at hh
              subst hh
              have hcc := ((hcompat (x :: xs) hq).2 ⟨xs, rfl⟩).symm
              exact ⟨[], by simp [valueSegs], hcc⟩
          · exact Or.inr ⟨hq, hh⟩
    | cons k2 rest2 =>
      intro q
      cases hf : findKey acc k with
      | none =>
        have hset : insertSegs acc (k :: k2 :: rest2) t
            = setEntry acc k (Sum.inr (insertSegs Catalog.nil (k2 :: rest2) t)) := by
          simp [insertSegs, hf, hknp]
        rw [hset, pathsSegs_setEntry acc k _ hnd q]
        have hX : ∀ q2, q2 ∈ pathsSegs (insertSegs Catalog.nil (k2 :: rest2) t)
            ↔ q2 = k2 :: rest2 := by
          intro q2
          rw [ih Catalog.nil t rfl (by simp) hrsafe
            (by intro q3 hq3; simp [pathsSegs] at hq3) q2]
          simp [pathsSegs]
        constructor
        · rintro (⟨q2, hq2, rfl⟩ | ⟨hq, _⟩)
          · exact Or.inl (by rw [(hX q2).1 hq2])
          · exact Or.inr hq
        · rintro (rfl | hq)
          · exact Or.inl ⟨k2 :: rest2, (hX _).2 rfl, rfl⟩
          · have hk : ¬ k ∈ keys acc := (findKey_none_iff acc k).1 hf
            exact Or.inr ⟨hq, head_ne_of_not_mem_keys acc k hk q hq⟩
      | some v =>
        cases v with
        | inl t2 =>
          have hmem := findKey_inl_mem acc k t2 hf
          have := (hcompat [k] hmem).1 ⟨k2 :: rest2, rfl⟩
          simp at this
        | inr sub =>
          have hsubnd := findKey_inr_nodup acc k sub hnd hf
          have hset : insertSegs acc (k :: k2 :: rest2) t
              = setEntry acc k (Sum.inr (insertSegs sub (k2 :: rest2) t)) := by
            simp [insertSegs, hf]
          rw [hset, pathsSegs_setEntry acc k _ hnd q]
          have hFK := findKey_some_paths acc k (Sum.inr sub) hnd hf
          have hcompat2 : ∀ q2 ∈ pathsSegs sub,
              (segPre q2 (k2 :: rest2) → q2 = k2 :: rest2) ∧
              (segPre (k2 :: rest2) q2 → k2 :: rest2 = q2) := by
            intro q2 hq2
            have hmem : k :: q2 ∈ pathsSegs acc := ((hFK (k :: q2)).2 ⟨q2, hq2, rfl⟩).1
            constructor
            · rintro ⟨t3, ht3⟩
              have hcc := (hcompat (k :: q2) hmem).1 ⟨t3, by rw [List.cons_append, ht3]⟩
              exact (List.cons_eq_cons.1 hcc).2
            · rintro ⟨t3, ht3⟩
              have hcc := (hcompat (k :: q2) hmem).2 ⟨t3, by rw [List.cons_append, ht3]⟩
              exact (List.cons_eq_cons.1 hcc).2
          have hIH := ih sub t hsubnd (by simp) hrsafe hcompat2
          constructor
          · rintro (⟨q2, hq2, rfl⟩ | ⟨hq, _⟩)
            · rcases (hIH q2).1 hq2 with rfl | hq2m
              · exact Or.inl rfl
              · exact Or.inr ((hFK (k :: q2)).2 ⟨q2, hq2m, rfl⟩).1
            · exact Or.inr hq
          · rintro (rfl | hq)
            · exact Or.inl ⟨k2 :: rest2, (hIH _).2 (Or.inl rfl), rfl⟩
            · by_cases hh : q.head? = some k
              · obtain ⟨q2, hq2, rfl⟩ := (hFK q).1 ⟨hq, hh⟩
                exact Or.inl ⟨q2, (hIH q2).2 (Or.inr hq2), rfl⟩
              · exact Or.inr ⟨hq, hh⟩

theorem reconStep_resolved (c : Catalog) (hg : allKeysGood c = true)
    (hnd : nodupKeys c = true) (acc : Catalog) (p : String)
    (hp : p ∈ listAllToolPaths c "") :
    ∃ segsp tp, segsp ∈ pathsSegs c ∧ splitCh '.' p = segsp ∧
      getToolByPath c p = some tp ∧ reconStep c acc p = insertSegs acc segsp tp := by
  rw [listAllToolPaths_eq_map c hg ""] at hp
  obtain ⟨segsp, hsegsp, hpe⟩ := List.mem_map.1 hp
  have hsplit : splitCh '.' p = segsp := by
    rw [← hpe]
    exact splitCh_of_pathsSegs c hg segsp hsegsp
  obtain ⟨tp, htp⟩ := getToolSegs_of_pathsSegs c hnd segsp hsegsp
  have hres : getToolByPath c p = some tp := by
    unfold getToolByPath
    rw [hsplit]
    exact htp
  exact ⟨segsp, tp, hsegsp, hsplit, hres, by simp [reconStep, hres, hsplit]⟩

theorem pathsSegs_reconfold (c : Catalog) (hwf : wfCatalog c = true)
    (hsafe : safeKeys c = true) :
    ∀ (S : List String) (acc : Catalog), nodupKeys acc = true →
    (∀ q ∈ pathsSegs acc, q ∈ pathsSegs c) →
    (∀ p ∈ S, p ∈ listAllToolPaths c "") →
    ∀ q, q ∈ pathsSegs (S.foldl (reconStep c) acc)
      ↔ (∃ p ∈ S, q = splitCh '.' p) ∨ q ∈ pathsSegs acc := by
  have hg := wfCatalog_allKeysGood c hwf
  have hnd := wfCatalog_nodupKeys c hwf
  intro S
  induction S with
  | nil =>
    intro acc _ _ _ q
    simp
  | cons p rest ih =>
    intro acc haccnd haccsub hS q
    obtain ⟨segsp, tp, hsegsp, hsplit, hres, hstep⟩ :=
      reconStep_resolved c hg hnd acc p (hS p (by simp))
    have hcompat : ∀ q2 ∈ pathsSegs acc,
        (segPre q2 segsp → q2 = segsp) ∧ (segPre segsp q2 → segsp = q2) := by
      intro q2 hq2
      exact ⟨fun hpre => pathsSegs_pre_free c hnd q2 (haccsub q2 hq2) segsp hsegsp hpre,
             fun hpre => pathsSegs_pre_free c hnd segsp hsegsp q2 (haccsub q2 hq2) hpre⟩
    have hins := pathsSegs_insertSegs segsp acc tp haccnd
      (pathsSegs_ne_nil c segsp hsegsp) (pathsSegs_safe c hsafe segsp hsegsp) hcompat
    have hnd2 : nodupKeys (insertSegs acc segsp tp) = true :=
      nodupKeys_insertSegs segsp acc tp haccnd
    have hsub2 : ∀ q2 ∈ pathsSegs (insertSegs acc segsp tp), q2 ∈ pathsSegs c := by
      intro q2 hq2
      rcases (hins q2).1 hq2 with rfl | hq2m
      · exact hsegsp
      · exact haccsub q2 hq2m
    rw [List.foldl_cons, hstep,
      ih (insertSegs acc segsp tp) hnd2 hsub2 (fun p2 hp2 => hS p2 (by simp [hp2])) q,
      hins q]
    constructor
    · rintro (⟨p2, hp2, rfl⟩ | rfl | hq)
      · exact Or.inl ⟨p2, by simp [hp2], rfl⟩
      · exact Or.inl ⟨p, by simp, hsplit.symm⟩
      · exact Or.inr hq
    · rintro (⟨p2, hp2, he⟩ | hq)
      · rcases List.mem_cons.1 hp2 with rfl | hp2m
        · exact Or.inr (Or.inl (by rw [he, hsplit]))
        · exact Or.inl ⟨p2, hp2m, he⟩
      · exact Or.inr (Or.inr hq)

theorem allKeysGood_reconfold (c : Catalog) (hwf : wfCatalog c = true) :
    ∀ (S : List String) (acc : Catalog), allKeysGood acc = true →
    (∀ p ∈ S, p ∈ listAllToolPaths c "") →
    allKeysGood (S.foldl (reconStep c) acc) = true := by
  have hg := wfCatalog_allKeysGood c hwf
  have hnd := wfCatalog_nodupKeys c hwf
  intro S
  induction S with
  | nil => intro acc hacc _; exact hacc
  | cons p rest ih =>
    intro acc hacc hS
    obtain ⟨segsp, tp, hsegsp, hsplit, hres, hstep⟩ :=
      reconStep_resolved c hg hnd acc p (hS p (by simp))
    rw [List.foldl_cons, hstep]
    exact ih (insertSegs acc segsp tp)
      (allKeysGood_insertSegs segsp acc tp hacc (pathsSegs_good c hg segsp hsegsp))
      (fun p2 hp2 => hS p2 (by simp [hp2]))

theorem reconstruct_roundtrip (c : Catalog) (hwf : wfCatalog c = true)
    (hsafe : safeKeys c = true)
    (S : List String) (hS : ∀ p ∈ S, p ∈ listAllToolPaths c "") :
    ∀ q, q ∈ listAllToolPaths (reconstructCatalog c S) "" ↔ q ∈ S := by
  have hg := wfCatalog_allKeysGood c hwf
  have hnd := wfCatalog_nodupKeys c hwf
  have hgR : allKeysGood (reconstructCatalog c S) = true :=
    allKeysGood_reconfold c hwf S Catalog.nil rfl hS
  have hid : ∀ p ∈ S, joinPre "" (joinSep "." (splitCh '.' p)) = p := by
    intro p hp
    have hp2 := hS p hp
    rw [listAllToolPaths_eq_map c hg ""] at hp2
    obtain ⟨segsp, hsp, hpe⟩ := List.mem_map.1 hp2
    have hsplit : splitCh '.' p = segsp := by
      rw [← hpe]
      exact splitCh_of_pathsSegs c hg segsp hsp
    rw [hsplit, hpe]
  have hfold := pathsSegs_reconfold c hwf hsafe S Catalog.nil rfl
    (by intro q hq; simp [pathsSegs] at hq) hS
  intro q
  rw [listAllToolPaths_eq_map (reconstructCatalog c S) hgR ""]
  constructor
  · intro hq
    obtain ⟨segs, hsegs, hqe⟩ := List.mem_map.1 hq
    rcases (hfold segs).1 hsegs with ⟨p, hp, rfl⟩ | hmem
    · rw [← hqe, hid p hp]
      exact hp
    · simp [pathsSegs] at hmem
  · intro hq
    refine List.mem_map.2 ⟨splitCh '.' q, ?_, hid q hq⟩
    exact (hfold (splitCh '.' q)).2 (Or.inl ⟨q, hq, rfl⟩)

theorem exceptMapM_ok_mem {α β : Type} (f : α → Except String β) :
    ∀ (l : List α) (ys : List β), exceptMapM f l = Except.ok ys →
    ∀ x ∈ l, ∃ y ∈ ys, f x = Except.ok y := by
  intro l
  induction l with
  | nil => intro ys _ x hx; simp at hx
  | cons x0 xs ih =>
    intro ys h x hx
    cases hf : f x0 with
    | error e => simp [exceptMapM, hf] at h
    | ok y0 =>
      cases hrest : exceptMapM f xs with
      | error e => simp [exceptMapM, hf, hrest] at h
      | ok ys0 =>
        simp only [exceptMapM, hf, hrest, Except.ok.injEq] at h
        subst h
        rcases List.mem_cons.1 hx with rfl | hxm
        · exact ⟨y0, by simp, hf⟩
        · obtain ⟨y, hy, hfy⟩ := ih ys0 hrest x hxm
          exact ⟨y, by simp [hy], hfy⟩

theorem chunksFuel_flatten {α : Type} (n : Nat) (hn : n ≠ 0) :
    ∀ (fuel : Nat) (l : List α), l.length ≤ fuel → (chunksFuel n fuel l).flatten = l := by
  intro fuel
  induction fuel with
  | zero =>
    intro l hl
    cases l with
    | nil => rfl
    | cons a rest => simp at hl
  | succ fuel ih =>
    intro l hl
    cases l with
    | nil => rfl
    | cons a rest =>
      simp only [chunksFuel, List.flatten_cons]
      rw [ih ((a :: rest).drop n)
        (by simp only [List.length_drop, List.length_cons] at hl ⊢; omega)]
      exact List.take_append_drop n (a :: rest)

theorem chunks_flatten {α : Type} (n : Nat) (hn : n ≠ 0) (l : List α) :
    (chunks n l).flatten = l := by
  unfold chunks
  rw [if_neg hn]
  exact chunksFuel_flatten n hn l.length l (le_refl _)

theorem mem_chunks_exists {α : Type} (n : Nat) (hn : n ≠ 0) (l : List α) (x : α)
    (hx : x ∈ l) : ∃ s ∈ chunks n l, x ∈ s := by
  rw [← chunks_flatten n hn l] at hx
  exact List.mem_flatten.1 hx

theorem filterMap_filter_filterMap {α β γ : Type} (g : α → Option β) (p : β → Bool)
    (h : β → Option γ) (l : List α) :
    ((l.filterMap g).filter p).filterMap h
      = l.filterMap (fun x =>
          match g x with
          | none => none
          | some n => if p n then h n else none) := by
  induction l with
  | nil => rfl
  | cons x xs ih =>
    cases hg : g x with
    | none => simp [List.filterMap_cons, hg, ih]
    | some n =>
      by_cases hp : p n
      · cases hh : h n <;> simp [List.filterMap_cons, hg, hp, List.filter_cons, ih, hh]
      · simp [List.filterMap_cons, hg, hp, List.filter_cons, ih]

theorem parseBatchSelection_eq_claim (response : String) (batch : List BatchItem) :
    parseBatchSelection response batch = claimTokenSelection response batch := by
  unfold parseBatchSelection claimTokenSelection
  by_cases hnone : jsToLower (jsTrim response) = "none" ∨ jsToLower (jsTrim response) = ""
  · rw [if_pos hnone, if_pos hnone]
  · rw [if_neg hnone, if_neg hnone,
      filterMap_filter_filterMap (fun s => jsParseInt (jsTrim s))
        (fun n => decide (1 ≤ n) && decide (n ≤ (batch.length : Int)))
        (fun idx => (batch[idx.toNat - 1]?).map (fun it => it.path))]
    congr 1
    funext token
    cases hparse : jsParseInt (jsTrim token) with
    | none => rfl
    | some n => simp [Bool.and_eq_true, decide_eq_true_eq]

theorem stripParams_append (s : String) : stripParamsSuffix (s ++ "Params") = s := by
  have h6 : ("Params" : String).data.length = 6 := rfl
  unfold stripParamsSuffix
  rw [String.data_append, List.length_append, h6, Nat.add_sub_cancel, List.take_left]

theorem filterToolsForQuery_empty (query : String) (catalog : Catalog)
    (llm : String → Except String String) (b w : Option Nat)
    (h : listAllToolPaths catalog "" = []) :
    filterToolsForQuery query catalog llm b w
      = Except.ok (FilterToolsResult.mk Catalog.nil 0 0 []) := by
  unfold filterToolsForQuery
  simp [h]

theorem executeCode_empty (mainCode : String) (catalog : Catalog)
    (ev : String → List (String × String) → Except String String)
    (h : listAllToolPaths catalog "" = []) :
    executeCode mainCode catalog ev
      = (ExecuteCodeResult.mk false "" (some "No tools available in catalog") 0, false) := by
  unfold executeCode
  simp [h]

theorem filterToolBatch_fail_open (batch : List BatchItem) (query : String)
    (llm : String → Except String String) (d e : String)
    (hdesc : batchDescriptions batch = some d)
    (herr : llm (filterPrompt query d) = Except.error e) :
    filterToolBatch batch query llm = Except.ok (batch.map (fun it => it.path)) := by
  unfold filterToolBatch
  rw [hdesc]
  simp [herr]

/-- C3 (fail-open guarantee): whenever the batch filter completes normally and
the relevance call rejected for one of its batches, every path of that batch
is in the final selected-path list.  The positivity hypothesis on the
concurrency width reflects that the JS wave loop never terminates at width 0
(every caller passes a positive width). -/
theorem claim3_fail_open (catalog : Catalog) (query : String)
    (llm : String → Except String String) (bOpt wOpt : Option Nat)
    (hW : wOpt.getD filterToolsDefaultMaxConcurrentThreads ≠ 0)
    (result : FilterToolsResult)
    (hok : filterToolsForQuery query catalog llm bOpt wOpt = Except.ok result)
    (batch : List BatchItem)
    (hbatch : batch ∈ chunks (bOpt.getD filterToolsDefaultMaxToolsPerPrompt)
      (catalogBatchItems catalog))
    (d e : String) (hdesc : batchDescriptions batch = some d)
    (herr : llm (filterPrompt query d) = Except.error e) :
    ∀ item ∈ batch, item.path ∈ result.selectedPaths := by
  unfold filterToolsForQuery at hok
  by_cases hempty : (listAllToolPaths catalog "").length = 0
  · have hnil : catalogBatchItems catalog = [] := by
      unfold catalogBatchItems
      rw [List.length_eq_zero.1 hempty]
      rfl
    rw [hnil] at hbatch
    simp [chunks, chunksFuel] at hbatch
  · rw [if_neg hempty] at hok
    cases hwv : exceptMapM
        (fun batchSlice => exceptMapM (fun b => filterToolBatch b query llm) batchSlice)
        (chunks (wOpt.getD filterToolsDefaultMaxConcurrentThreads)
          (chunks (bOpt.getD filterToolsDefaultMaxToolsPerPrompt) (catalogBatchItems catalog))) with
    | error e2 =>
      rw [hwv] at hok
      simp [Bind.bind, Except.bind] at hok
    | ok waveResults =>
      rw [hwv] at hok
      simp only [Bind.bind, Except.bind, pure, Except.pure, Except.ok.injEq] at hok
      obtain ⟨slice, hslice, hmem⟩ := mem_chunks_exists _ hW _ batch hbatch
      obtain ⟨rs, hrs, hsliceok⟩ := exceptMapM_ok_mem _ _ waveResults hwv slice hslice
      obtain ⟨r, hr, hbatchok⟩ := exceptMapM_ok_mem _ _ rs hsliceok batch hmem
      rw [filterToolBatch_fail_open batch query llm d e hdesc herr] at hbatchok
      have hre : r = batch.map (fun it => it.path) := by
        injection hbatchok.symm
      intro item hitem
      have hpath : item.path ∈ r := by
        rw [hre]
        exact List.mem_map.2 ⟨item, hitem, rfl⟩
      have hsel : item.path ∈ (waveResults.map List.flatten).flatten := by
        refine List.mem_flatten.2 ⟨rs.flatten, ?_, List.mem_flatten.2 ⟨r, hr, hpath⟩⟩
        exact List.mem_map.2 ⟨rs, hrs, rfl⟩
      rw [← hok]
      exact hsel

theorem except_bind_ok {α β : Type} (a : α) (f : α → Except String β) :
    (Except.ok a >>= f) = f a := rfl

theorem except_bind_error {α β : Type} (e : String) (f : α → Except String β) :
    ((Except.error e : Except String α) >>= f) = Except.error e := rfl

theorem except_pure {α : Type} (a : α) : (pure a : Except String α) = Except.ok a := rfl

/-- C1: when the candidate program fails the static TypeScript compilation
check, runMCPCode returns resultType failure and short-circuits before the
Execution Wirer: the instrumentation flag is false, so executeCode is never
invoked against the uncompiled program. -/
theorem claim1_compile_gate (env : PipelineEnv) (tools : Catalog)
    (options : RunMCPCodeOptions) (fr : FilterToolsResult) (ir : ImplementCodeResult)
    (hre : env.hasRunEnvironment = true)
    (hfr : pipelineFilterResult env tools options = Except.ok fr)
    (him : implementCode (pipelineQuery options) (pipelinePseudocode env tools options)
      (generateToolsCodeText fr.filteredCatalog) (synthesizedInterfaceNames fr.filteredCatalog)
      env.mainLLM env.verifyTS = Except.ok ir)
    (hcs : ir.compilesSuccessfully = false) :
    runMCPCode env tools options
      = Except.ok (MCPExecutionResult.mk ResultType.failure stepNamesNoExec, false) := by
  unfold runMCPCode
  rw [hfr, except_bind_ok]
  rw [if_neg (by simp [hre])]
  rw [him, except_bind_ok, if_pos hcs, except_pure]

/-- C10: every result actually returned by runMCPCode carries resultType
success or failure; the partial variant declared in MCPExecutionResult is
produced by no execution path. -/
theorem claim10_no_partial (env : PipelineEnv) (tools : Catalog)
    (options : RunMCPCodeOptions) (res : MCPExecutionResult) (invoked : Bool)
    (h : runMCPCode env tools options = Except.ok (res, invoked)) :
    res.resultType = ResultType.success ∨ res.resultType = ResultType.failure := by
  unfold runMCPCode at h
  cases hfr : pipelineFilterResult env tools options with
  | error e =>
    rw [hfr, except_bind_error] at h
    simp at h
  | ok fr =>
    rw [hfr, except_bind_ok] at h
    by_cases hre : env.hasRunEnvironment = false
    · rw [if_pos hre] at h
      simp at h
    · rw [if_neg hre] at h
      cases him : implementCode (pipelineQuery options) (pipelinePseudocode env tools options)
          (generateToolsCodeText fr.filteredCatalog) (synthesizedInterfaceNames fr.filteredCatalog)
          env.mainLLM env.verifyTS with
      | error e =>
        rw [him, except_bind_error] at h
        simp at h
      | ok ir =>
        rw [him, except_bind_ok] at h
        by_cases hcs : ir.compilesSuccessfully = false
        · rw [if_pos hcs, except_pure] at h
          simp only [Except.ok.injEq, Prod.mk.injEq] at h
          rw [← h.1]
          exact Or.inr rfl
        · rw [if_neg hcs, except_pure] at h
          simp only [Except.ok.injEq, Prod.mk.injEq] at h
          rw [← h.1]
          by_cases hex : (executeCode ir.fullProgram fr.filteredCatalog
              env.evalInProcess).1.success
          · rw [if_pos hex]
            exact Or.inl rfl
          · rw [if_neg hex]
            exact Or.inr rfl

/-- C5 amended: on a catalog with zero tools the batch filter returns at once
with totalTools 0, selectedTools 0, the empty catalog and an empty path list,
independently of the relevance callable (no relevance call can influence the
result); any result the pipeline then returns is failure; and the Execution
Wirer, when reached, fails fast on the empty filtered catalog without
attempting evaluation. -/
theorem claim5_empty_catalog (catalog : Catalog)
    (h : listAllToolPaths catalog "" = []) :
    (∀ query llm b w, filterToolsForQuery query catalog llm b w
        = Except.ok (FilterToolsResult.mk Catalog.nil 0 0 []))
    ∧ (∀ env options res invoked,
        runMCPCode env catalog options = Except.ok (res, invoked)
        → res.resultType = ResultType.failure)
    ∧ (∀ code ev, executeCode code catalog ev
        = (ExecuteCodeResult.mk false "" (some "No tools available in catalog") 0, false)) := by
  refine ⟨fun query llm b w => filterToolsForQuery_empty query catalog llm b w h,
    ?_, fun code ev => executeCode_empty code catalog ev h⟩
  intro env options res invoked hrun
  unfold runMCPCode at hrun
  have hfr : pipelineFilterResult env catalog options
      = Except.ok (FilterToolsResult.mk Catalog.nil 0 0 []) := by
    unfold pipelineFilterResult
    exact filterToolsForQuery_empty _ catalog _ _ _ h
  rw [hfr, except_bind_ok] at hrun
  by_cases hre : env.hasRunEnvironment = false
  · rw [if_pos hre] at hrun
    simp at hrun
  · rw [if_neg hre] at hrun
    cases him : implementCode (pipelineQuery options) (pipelinePseudocode env catalog options)
        (generateToolsCodeText (FilterToolsResult.mk Catalog.nil 0 0 []).filteredCatalog)
        (synthesizedInterfaceNames (FilterToolsResult.mk Catalog.nil 0 0 []).filteredCatalog)
        env.mainLLM env.verifyTS with
    | error e =>
      rw [him, except_bind_error] at hrun
      simp at hrun
    | ok ir =>
      rw [him, except_bind_ok] at hrun
      by_cases hcs : ir.compilesSuccessfully = false
      · rw [if_pos hcs, except_pure] at hrun
        simp only [Except.ok.injEq, Prod.mk.injEq] at hrun
        rw [← hrun.1]
      · rw [if_neg hcs, except_pure] at hrun
        have hexec : executeCode ir.fullProgram
            (FilterToolsResult.mk Catalog.nil 0 0 []).filteredCatalog env.evalInProcess
            = (ExecuteCodeResult.mk false "" (some "No tools available in catalog") 0, false) :=
          executeCode_empty _ _ _ rfl
        rw [hexec] at hrun
        simp only [Except.ok.injEq, Prod.mk.injEq] at hrun
        rw [← hrun.1]
        simp

theorem filterMap_congr_mem {α β : Type} (l : List α) (f g : α → Option β)
    (h : ∀ a ∈ l, f a = g a) : l.filterMap f = l.filterMap g := by
  induction l with
  | nil => rfl
  | cons x xs ih =>
    rw [List.filterMap_cons, List.filterMap_cons, h x (by simp),
      ih (fun a ha => h a (by simp [ha]))]

/-- C2 counterexample: the catalog whose single key is the dotted string a.b
flattens to a path that getToolByPath cannot resolve and reconstructCatalog
silently skips, and the well-formed catalog (nonempty dot-free distinct keys)
whose intermediate key toString is an inherited Object.prototype member name
loses its tool to the prototype chain during reconstruction: in both cases
the flattened path does not survive the reconstruct/flatten round trip,
refuting the claim for arbitrary catalogs. -/
theorem claim2_counterexample :
    (("a.b" ∈ listAllToolPaths exDotCatalog "")
      ∧ listAllToolPaths (reconstructCatalog exDotCatalog ["a.b"]) "" = []
      ∧ ¬ ("a.b" ∈ listAllToolPaths (reconstructCatalog exDotCatalog ["a.b"]) ""))
    ∧ (wfCatalog exProtoKeyCatalog = true
      ∧ "toString.b" ∈ listAllToolPaths exProtoKeyCatalog ""
      ∧ listAllToolPaths (reconstructCatalog exProtoKeyCatalog ["toString.b"]) "" = []) := by
  decide

/-- C2 amended: for every catalog satisfying the JS-object key invariant
(pairwise-distinct keys per level) whose keys are nonempty, dot-free and not
inherited Object.prototype member names, and every subset S of its tool
paths, flattening the reconstruction of S yields exactly the paths in S, no
more and no fewer; in particular reconstructing with all paths and
re-flattening yields the same path set as flattening the original. -/
theorem claim2_roundtrip (catalog : Catalog) (hwf : wfCatalog catalog = true)
    (hsafe : safeKeys catalog = true)
    (S : List String) (hS : ∀ p ∈ S, p ∈ listAllToolPaths catalog "") :
    (∀ q, q ∈ listAllToolPaths (reconstructCatalog catalog S) "" ↔ q ∈ S)
    ∧ (∀ q, q ∈ listAllToolPaths
        (reconstructCatalog catalog (listAllToolPaths catalog "")) ""
        ↔ q ∈ listAllToolPaths catalog "") :=
  ⟨reconstruct_roundtrip catalog hwf hsafe S hS,
   reconstruct_roundtrip catalog hwf hsafe (listAllToolPaths catalog "") (fun _ hp => hp)⟩

theorem claim2_witness :
    wfCatalog exCatalog = true
    ∧ safeKeys exCatalog = true
    ∧ (∀ p ∈ ["slack.send"], p ∈ listAllToolPaths exCatalog "")
    ∧ ("slack.send" ∈ listAllToolPaths (reconstructCatalog exCatalog ["slack.send"]) ""
        ↔ "slack.send" ∈ ["slack.send"]) :=
  ⟨by decide, by decide, by decide,
   (claim2_roundtrip exCatalog (by decide) (by decide)
     ["slack.send"] (by decide)).1 "slack.send"⟩

/-- C9 counterexample: the catalog with the empty (dot-free) key produces the
flattened path b, which getToolByPath cannot resolve, so the claim fails for
dot-free keys alone. -/
theorem claim9_counterexample :
    noDotKeys exEmptyKeyCatalog = true
    ∧ "b" ∈ listAllToolPaths exEmptyKeyCatalog ""
    ∧ getToolByPath exEmptyKeyCatalog "b" = none := by
  decide

/-- C9 amended: for every catalog with the JS-object key invariant whose keys
are nonempty as well as dot-free, every path returned by listAllToolPaths
resolves to a tool via getToolByPath, and hence every batch item built by
filterToolsForQuery carries a non-null tool (the non-null assertion never
dereferences null). -/
theorem claim9_resolution (catalog : Catalog) (hwf : wfCatalog catalog = true) :
    (∀ p ∈ listAllToolPaths catalog "", ∃ t, getToolByPath catalog p = some t)
    ∧ ∀ item ∈ catalogBatchItems catalog, item.tool.isSome = true := by
  refine ⟨getToolByPath_total catalog hwf, ?_⟩
  intro item hitem
  unfold catalogBatchItems at hitem
  obtain ⟨p, hp, rfl⟩ := List.mem_map.1 hitem
  obtain ⟨t, ht⟩ := getToolByPath_total catalog hwf p hp
  simp [ht]

theorem claim9_witness :
    wfCatalog exCatalog = true
    ∧ (∃ t, getToolByPath exCatalog "slack.send" = some t) :=
  ⟨by decide, (claim9_resolution exCatalog (by decide)).1 "slack.send" (by decide)⟩

/-- C4 counterexample: in one catalog the distinct tool paths a_b and a.b
collide under the path transform (it is not injective), and the function
names declared from the synthesized interfaces (derived from tool names)
differ from the keys of the execution binding table (derived from paths). -/
theorem claim4_counterexample :
    ("a_b" ∈ listAllToolPaths exCollideCatalog ""
      ∧ "a.b" ∈ listAllToolPaths exCollideCatalog ""
      ∧ "a_b" ≠ "a.b"
      ∧ pathToFunctionName "a_b" = pathToFunctionName "a.b")
    ∧ generateFunctionDeclarations (synthesizedInterfaceNames exCollideCatalog)
        ≠ bindingTableNames exCollideCatalog := by
  decide

theorem setAssoc_fst_mem : ∀ (m : List (String × String)) (k v : String),
    k ∈ m.map Prod.fst → (setAssoc m k v).map Prod.fst = m.map Prod.fst := by
  intro m
  induction m with
  | nil => intro k v h; simp at h
  | cons e rest ih =>
    intro k v h
    by_cases hk : e.1 = k
    · simp [setAssoc, hk]
    · have hm : k ∈ rest.map Prod.fst := by
        simp only [List.map_cons, List.mem_cons] at h
        rcases h with h1 | h1
        · exact absurd h1.symm hk
        · exact h1
      simp [setAssoc, hk, ih k v hm]

theorem setAssoc_fst_not_mem : ∀ (m : List (String × String)) (k v : String),
    ¬ k ∈ m.map Prod.fst → (setAssoc m k v).map Prod.fst = m.map Prod.fst ++ [k] := by
  intro m
  induction m with
  | nil => intro k v _; simp [setAssoc]
  | cons e rest ih =>
    intro k v h
    have hk : ¬ e.1 = k := by
      intro he
      exact h (by rw [List.map_cons, he]; simp)
    have hm : ¬ k ∈ rest.map Prod.fst := fun hm2 => h (by simp [hm2])
    simp [setAssoc, hk, ih k v hm]

theorem mem_setAssoc_fst (m : List (String × String)) (k v n : String) :
    n ∈ (setAssoc m k v).map Prod.fst ↔ n = k ∨ n ∈ m.map Prod.fst := by
  by_cases h : k ∈ m.map Prod.fst
  · rw [setAssoc_fst_mem m k v h]
    constructor
    · exact Or.inr
    · rintro (rfl | hm)
      · exact h
      · exact hm
  · rw [setAssoc_fst_not_mem m k v h]
    simp [List.mem_append, or_comm]

theorem setAssoc_fst_nodup (m : List (String × String)) (k v : String)
    (h : (m.map Prod.fst).Nodup) : ((setAssoc m k v).map Prod.fst).Nodup := by
  by_cases hk : k ∈ m.map Prod.fst
  · rw [setAssoc_fst_mem m k v hk]
    exact h
  · rw [setAssoc_fst_not_mem m k v hk]
    simp [List.nodup_append, h, hk]

theorem buildToolFunctions_fold (catalog : Catalog) :
    ∀ (toolPaths : List String) (acc : List (String × String)),
    (acc.map Prod.fst).Nodup →
    ((toolPaths.foldl (buildStep catalog) acc).map Prod.fst).Nodup
    ∧ ∀ n, n ∈ (toolPaths.foldl (buildStep catalog) acc).map Prod.fst
        ↔ n ∈ acc.map Prod.fst
          ∨ ∃ p ∈ toolPaths, (getToolByPath catalog p).isSome = true
              ∧ n = pathToFunctionName p := by
  intro toolPaths
  induction toolPaths with
  | nil =>
    intro acc h
    exact ⟨h, fun n => by simp⟩
  | cons p rest ih =>
    intro acc h
    cases hg : getToolByPath catalog p with
    | none =>
      have hstep : buildStep catalog acc p = acc := by
        simp [buildStep, hg]
      rw [List.foldl_cons, hstep]
      obtain ⟨h1, h2⟩ := ih acc h
      refine ⟨h1, fun n => ?_⟩
      rw [h2 n]
      constructor
      · rintro (hm | ⟨p2, hp2, hsome, he⟩)
        · exact Or.inl hm
        · exact Or.inr ⟨p2, by simp [hp2], hsome, he⟩
      · rintro (hm | ⟨p2, hp2, hsome, he⟩)
        · exact Or.inl hm
        · rcases List.mem_cons.1 hp2 with rfl | hp2m
          · rw [hg] at hsome
            simp at hsome
          · exact Or.inr ⟨p2, hp2m, hsome, he⟩
    | some t =>
      have hstep : buildStep catalog acc p = setAssoc acc (pathToFunctionName p) p := by
        simp [buildStep, hg]
      rw [List.foldl_cons, hstep]
      obtain ⟨h1, h2⟩ := ih (setAssoc acc (pathToFunctionName p) p)
        (setAssoc_fst_nodup acc (pathToFunctionName p) p h)
      refine ⟨h1, fun n => ?_⟩
      rw [h2 n, mem_setAssoc_fst]
      constructor
      · rintro ((rfl | hm) | ⟨p2, hp2, hsome, he⟩)
        · exact Or.inr ⟨p, by simp, by simp [hg], rfl⟩
        · exact Or.inl hm
        · exact Or.inr ⟨p2, by simp [hp2], hsome, he⟩
      · rintro (hm | ⟨p2, hp2, hsome, he⟩)
        · exact Or.inl (Or.inr hm)
        · rcases List.mem_cons.1 hp2 with rfl | hp2m
          · exact Or.inl (Or.inl he)
          · exact Or.inr ⟨p2, hp2m, hsome, he⟩

/-- C4 amended: each Execution Binding Table key is derived deterministically,
but not injectively, from a tool path by the fixed transform
split-on-dot/join-underscore/uppercase (distinct paths a_b and a.b collide),
and the table, a JS Record built by successive property writes, holds each
canonical name once: its key list is duplicate-free, and a name is a key
exactly when it is the transform of some resolvable flattened tool path.  The
function names declared alongside the synthesized signatures are derived from
tool names (capitalized, with a Params-suffixed interface recovered by the
regex scan), not from tool paths, and in general are not the names that key
the binding table. -/
theorem claim4_binding_keys (catalog : Catalog) :
    (bindingTableNames catalog).Nodup
    ∧ ∀ n, n ∈ bindingTableNames catalog
        ↔ ∃ p ∈ listAllToolPaths catalog "",
            (getToolByPath catalog p).isSome = true ∧ n = pathToFunctionName p := by
  obtain ⟨h1, h2⟩ := buildToolFunctions_fold catalog (listAllToolPaths catalog "") [] (by simp)
  have he : (fun e : String × String => e.1) = Prod.fst := rfl
  unfold bindingTableNames buildToolFunctions
  rw [he]
  exact ⟨h1, fun n => by rw [h2 n]; simp⟩

theorem claim4_witness :
    "SLACK_SEND" ∈ bindingTableNames exCatalog
      ↔ ∃ p ∈ listAllToolPaths exCatalog "",
          (getToolByPath exCatalog p).isSome = true
            ∧ "SLACK_SEND" = pathToFunctionName p :=
  (claim4_binding_keys exCatalog).2 "SLACK_SEND"

/-- C6: when the relevance call answers normally, filterToolBatch returns
exactly the token-wise selection the claim describes: trim and lowercase; a
literal none or empty response selects nothing; otherwise split on commas,
keep exactly the tokens parsing as a 1-based index within the batch, map each
to the path of that 1-based tool, and silently discard non-numeric and
out-of-range tokens. -/
theorem claim6_response_parsing (batch : List BatchItem) (query : String)
    (llm : String → Except String String) (response d : String)
    (hdesc : batchDescriptions batch = some d)
    (hllm : llm (filterPrompt query d) = Except.ok response) :
    filterToolBatch batch query llm = Except.ok (claimTokenSelection response batch)
    ∧ ((jsToLower (jsTrim response) = "none" ∨ jsToLower (jsTrim response) = "")
        → claimTokenSelection response batch = []) := by
  constructor
  · unfold filterToolBatch
    rw [hdesc]
    simp only [hllm]
    rw [parseBatchSelection_eq_claim]
  · intro hn
    unfold claimTokenSelection
    rw [if_pos hn]

theorem claim6_witness :
    (batchDescriptions exFullBatch = some exBatchDesc)
    ∧ (llmConst " 2, 1,zz,0,7 " (filterPrompt "q" exBatchDesc)
        = Except.ok " 2, 1,zz,0,7 ")
    ∧ filterToolBatch exFullBatch "q" (llmConst " 2, 1,zz,0,7 ")
        = Except.ok (claimTokenSelection " 2, 1,zz,0,7 " exFullBatch)
    ∧ claimTokenSelection " 2, 1,zz,0,7 " exFullBatch = ["ping", "slack.send"] :=
  ⟨rfl, rfl,
   (claim6_response_parsing exFullBatch "q" (llmConst " 2, 1,zz,0,7 ")
     " 2, 1,zz,0,7 " exBatchDesc rfl rfl).1,
   by decide⟩

/-- C7: an exception raised during in-process evaluation of the generated
program, or rethrown out of an invoked tool binding, is caught inside
executeCode, which returns success false carrying the error message together
with the count of wired tools; the model of executeCode is a total function,
so nothing is re-raised past the wirer boundary. -/
theorem claim7_wirer_catches (mainCode : String) (catalog : Catalog)
    (ev : String → List (String × String) → Except String String) (e : String)
    (hne : listAllToolPaths catalog "" ≠ [])
    (herr : ev mainCode (buildToolFunctions catalog (listAllToolPaths catalog ""))
      = Except.error e) :
    executeCode mainCode catalog ev
      = (ExecuteCodeResult.mk false "" (some e) (listAllToolPaths catalog "").length,
         true) := by
  unfold executeCode
  rw [if_neg (fun hz => hne (List.length_eq_zero.1 hz))]
  simp [herr]

theorem claim7_witness :
    (listAllToolPaths exCatalog "" ≠ [])
    ∧ ((fun (_ : String) (_ : List (String × String)) => Except.error "boom")
        "code" (buildToolFunctions exCatalog (listAllToolPaths exCatalog ""))
        = (Except.error "boom" : Except String String))
    ∧ executeCode "code" exCatalog (fun _ _ => Except.error "boom")
        = (ExecuteCodeResult.mk false "" (some "boom")
            (listAllToolPaths exCatalog "").length, true) :=
  ⟨by decide, rfl,
   claim7_wirer_catches "code" exCatalog (fun _ _ => Except.error "boom") "boom"
     (by decide) rfl⟩

/-- C8: the destructuring default of maxConcurrentThreads inside the batch
filter is 20, outside the claimed (and JSDoc-documented) range 5 to 8, while
the pipeline entry point runMCPCode defaults it to 8 (inside the range) and
always passes the resolved value down; batch size defaults to 20 at both
sites.  This exhibits the divergence between the code and its own
documentation underlying the code_bug verdict. -/
theorem claim8_defaults :
    filterToolsDefaultMaxConcurrentThreads = 20
    ∧ filterToolsDocumentedMaxConcurrentThreads = 5
    ∧ ¬ (5 ≤ filterToolsDefaultMaxConcurrentThreads
        ∧ filterToolsDefaultMaxConcurrentThreads ≤ 8)
    ∧ runMCPCodeDefaultMaxConcurrentThreads = 8
    ∧ (5 ≤ runMCPCodeDefaultMaxConcurrentThreads
        ∧ runMCPCodeDefaultMaxConcurrentThreads ≤ 8)
    ∧ filterToolsDefaultMaxToolsPerPrompt = 20
    ∧ runMCPCodeDefaultMaxToolsPerPrompt = 20 := by
  decide

theorem claim1_witness :
    (exEnvCompileBad.hasRunEnvironment = true)
    ∧ (pipelineFilterResult exEnvCompileBad exCatalog exOptions
        = Except.ok (FilterToolsResult.mk
            (reconstructCatalog exCatalog ["slack.send"]) 2 1 ["slack.send"]))
    ∧ (implementCode (pipelineQuery exOptions)
        (pipelinePseudocode exEnvCompileBad exCatalog exOptions)
        (generateToolsCodeText (FilterToolsResult.mk
          (reconstructCatalog exCatalog ["slack.send"]) 2 1 ["slack.send"]).filteredCatalog)
        (synthesizedInterfaceNames (FilterToolsResult.mk
          (reconstructCatalog exCatalog ["slack.send"]) 2 1 ["slack.send"]).filteredCatalog)
        exEnvCompileBad.mainLLM exEnvCompileBad.verifyTS
        = Except.ok (ImplementCodeResult.mk "bad code" false
            ["Line 1:1 - Cannot find name UNKNOWN_TOOL."] "bad code"))
    ∧ ((ImplementCodeResult.mk "bad code" false
        ["Line 1:1 - Cannot find name UNKNOWN_TOOL."] "bad code").compilesSuccessfully
        = false)
    ∧ runMCPCode exEnvCompileBad exCatalog exOptions
        = Except.ok (MCPExecutionResult.mk ResultType.failure stepNamesNoExec, false) :=
  ⟨rfl, rfl, rfl, rfl,
   claim1_compile_gate exEnvCompileBad exCatalog exOptions
     (FilterToolsResult.mk (reconstructCatalog exCatalog ["slack.send"]) 2 1 ["slack.send"])
     (ImplementCodeResult.mk "bad code" false
       ["Line 1:1 - Cannot find name UNKNOWN_TOOL."] "bad code")
     rfl rfl rfl rfl⟩

theorem claim10_witness :
    (runMCPCode exEnvCompileOk exCatalog exOptions
      = Except.ok (MCPExecutionResult.mk ResultType.success stepNamesAll, true))
    ∧ ((MCPExecutionResult.mk ResultType.success stepNamesAll).resultType
          = ResultType.success
        ∨ (MCPExecutionResult.mk ResultType.success stepNamesAll).resultType
          = ResultType.failure) :=
  ⟨rfl, claim10_no_partial exEnvCompileOk exCatalog exOptions
    (MCPExecutionResult.mk ResultType.success stepNamesAll) true rfl⟩

/-- C5 counterexample: on the empty catalog, with collaborators whose compile
check succeeds, the pipeline reports failure but the Execution Wirer IS
invoked (instrumentation flag true): the run reaches executeCode, which then
fails fast.  This refutes the claimed "without invoking the Execution
Wirer". -/
theorem claim5_counterexample :
    listAllToolPaths Catalog.nil "" = []
    ∧ runMCPCode exEnvCompileOk Catalog.nil exOptions
        = Except.ok (MCPExecutionResult.mk ResultType.failure stepNamesAll, true) :=
  ⟨rfl, rfl⟩

theorem claim5_witness :
    (listAllToolPaths Catalog.nil "" = [])
    ∧ (filterToolsForQuery "q" Catalog.nil (llmFail "down") none none
        = Except.ok (FilterToolsResult.mk Catalog.nil 0 0 []))
    ∧ ((MCPExecutionResult.mk ResultType.failure stepNamesAll).resultType
        = ResultType.failure)
    ∧ (executeCode "code" Catalog.nil (fun _ _ => Except.ok "r")
        = (ExecuteCodeResult.mk false "" (some "No tools available in catalog") 0,
           false)) :=
  ⟨rfl,
   (claim5_empty_catalog Catalog.nil rfl).1 "q" (llmFail "down") none none,
   (claim5_empty_catalog Catalog.nil rfl).2.1 exEnvCompileOk exOptions
     (MCPExecutionResult.mk ResultType.failure stepNamesAll) true rfl,
   (claim5_empty_catalog Catalog.nil rfl).2.2 "code" (fun _ _ => Except.ok "r")⟩

theorem claim3_witness :
    ((none : Option Nat).getD filterToolsDefaultMaxConcurrentThreads ≠ 0)
    ∧ (filterToolsForQuery "q" exCatalog (llmFail "timeout") none none
        = Except.ok (FilterToolsResult.mk
            (reconstructCatalog exCatalog ["slack.send", "ping"]) 2 2
            ["slack.send", "ping"]))
    ∧ (exFullBatch ∈ chunks ((none : Option Nat).getD filterToolsDefaultMaxToolsPerPrompt)
        (catalogBatchItems exCatalog))
    ∧ (batchDescriptions exFullBatch = some exBatchDesc)
    ∧ (llmFail "timeout" (filterPrompt "q" exBatchDesc) = Except.error "timeout")
    ∧ (BatchItem.mk "slack.send" (getToolByPath exCatalog "slack.send")).path
        ∈ (FilterToolsResult.mk (reconstructCatalog exCatalog ["slack.send", "ping"]) 2 2
            ["slack.send", "ping"]).selectedPaths :=
  ⟨by decide, rfl, by decide, rfl, rfl,
   claim3_fail_open exCatalog "q" (llmFail "timeout") none none (by decide)
     (FilterToolsResult.mk (reconstructCatalog exCatalog ["slack.send", "ping"]) 2 2
       ["slack.send", "ping"]) rfl
     exFullBatch (by decide) exBatchDesc "timeout" rfl rfl
     (BatchItem.mk "slack.send" (getToolByPath exCatalog "slack.send")) (by decide)⟩
